import Mathlib

/-!
Formal model of the storage-and-concurrency core of the bustub-based
database engine (buffer pool with LRU-K replacement, B+ tree index,
page guards, lock manager with deadlock detection), shallowly embedded
from the C++ sources, together with proofs and refutations of the
specification claims about it.

Keys, values and timestamps are modelled as natural numbers; page ids,
frame ids and transaction ids as integers (the sources use `-1` as the
`INVALID` sentinel).  Machine `size_t` arithmetic appears only in the
LRU-K distance computation, where `2 ^ 64 - 1` plays the role of
`std::numeric_limits<size_t>::max()`.
-/

namespace BusTub

/-- The INVALID_PAGE_ID / INVALID_TXN_ID sentinel (-1). -/
def INVALID : Int := -1

/-! ## B+ tree internal page (src/storage/page/b_plus_tree_internal_page.cpp)

An internal page is a slotted array of (key, child page id) pairs.
Slot 0's key is unused.  The C++ stores the slots in a fixed-capacity
in-page array; we model the array as lists (`keys`, `vals`) whose length
is the capacity, together with the `size` and `max_size` header fields. -/

structure InternalPage where
  size : Nat
  maxSize : Nat
  keys : List Nat
  vals : List Int
  deriving Repr, DecidableEq

namespace InternalPage

/-- `Init(max_size)`: type tag aside, sets `max_size`, `size = 1`, the unused
slot-0 key to the integer key 0 and the slot-0 value to INVALID_PAGE_ID.
The backing array is modelled with capacity `max_size + 1`. -/
def init (maxSize : Nat) : InternalPage :=
  { size := 1
    maxSize := maxSize
    keys := List.replicate (maxSize + 1) 0
    vals := List.replicate (maxSize + 1) INVALID }

/-- `KeyAt(index)`: for `1 <= index < size` the slot's key, otherwise the
(unused) slot-0 key. -/
def keyAt (p : InternalPage) (index : Int) : Nat :=
  if 1 ≤ index ∧ index < (p.size : Int) then p.keys.getD index.toNat 0
  else p.keys.getD 0 0

/-- `SetKeyAt(index, key)`: writes the slot only for `1 <= index < size`,
otherwise leaves the page unchanged. -/
def setKeyAt (p : InternalPage) (index : Int) (key : Nat) : InternalPage :=
  if 1 ≤ index ∧ index < (p.size : Int) then
    { p with keys := p.keys.set index.toNat key }
  else p

/-- `ValueAt(index)`: for `0 <= index < size` the slot's value, otherwise the
slot-0 value. -/
def valueAt (p : InternalPage) (index : Int) : Int :=
  if 0 ≤ index ∧ index < (p.size : Int) then p.vals.getD index.toNat INVALID
  else p.vals.getD 0 INVALID

/-- `SetValueAt(index, value)`: writes the slot for `0 <= index < size`.
Out of range the C++ runs `BUSTUB_ASSERT("index ... out of range", index)`,
whose condition is the (always non-null) string literal, so the assert never
fires and the call is a silent no-op. -/
def setValueAt (p : InternalPage) (index : Int) (value : Int) :
    InternalPage :=
  if 0 ≤ index ∧ index < (p.size : Int) then
    { p with vals := p.vals.set index.toNat value }
  else p

/-- `IncreaseSize(amount)` (common page header; the shared accessor is in
the missing `b_plus_tree_page.cpp`, its behavior fixed by the call sites). -/
def increaseSize (p : InternalPage) (amount : Int) : InternalPage :=
  { p with size := (p.size + amount).toNat }

/-- `SetSize(size)`. -/
def setSize (p : InternalPage) (n : Nat) : InternalPage := { p with size := n }

/-- Modelled from the spec: `GetMinSize()` for internal pages is
`ceil(max_size / 2)` (`b_plus_tree_page.cpp` is not under the provided
sources). -/
def minSize (p : InternalPage) : Nat := (p.maxSize + 1) / 2

/-- The unused slot-0 key that the out-of-range reads fall back to. -/
def slot0Key (p : InternalPage) : Nat := p.keys.getD 0 0

end InternalPage

/-- C10: the internal-page accessors are total on bad indexes: `KeyAt i`
with `i` outside `1..size-1` returns the unused slot-0 key rather than
signalling an error, and `SetKeyAt i k` with `i` outside `1..size-1`
leaves the page unchanged. -/
theorem internal_page_accessors_total (p : InternalPage) (i : Int) (k : Nat)
    (h : i < 1 ∨ (p.size : Int) ≤ i) :
    p.keyAt i = p.slot0Key ∧ p.setKeyAt i k = p := by
  have hcond : ¬(1 ≤ i ∧ i < (p.size : Int)) := by omega
  constructor
  · simp [InternalPage.keyAt, InternalPage.slot0Key, hcond]
  · simp [InternalPage.setKeyAt, hcond]

/-- Witness for C10 at a concrete page and index: index 3 is out of range
for a page of size 3, the read returns the slot-0 key and the write is a
no-op. -/
theorem internal_page_accessors_total_witness :
    ((3 : Int) < 1 ∨ ((InternalPage.init 4).size : Int) ≤ 3) ∧
      ((InternalPage.init 4).keyAt 3 = (InternalPage.init 4).slot0Key ∧
        (InternalPage.init 4).setKeyAt 3 7 = InternalPage.init 4) :=
  ⟨by decide, internal_page_accessors_total (InternalPage.init 4) 3 7 (by decide)⟩

/-! ## Page guards (src/storage/page/page_guard.cpp)

A `BasicPageGuard` owns at most one pin; `ReadPageGuard` / `WritePageGuard`
wrap one and additionally own a latch.  We model the pointer fields as
presence flags and record the side effects (unpin, latch release) that a
call performs as an explicit action list. -/

inductive GuardAction
  | unpinPage (pageId : Int) (dirty : Bool)
  | rUnlatch (pageId : Int)
  | wUnlatch (pageId : Int)
  deriving Repr, DecidableEq

structure BasicPageGuard where
  hasBpm : Bool
  hasPage : Bool
  isDirty : Bool
  pageId : Int
  deriving Repr, DecidableEq

namespace BasicPageGuard

/-- The null state a moved-from or dropped guard is left in. -/
def empty : BasicPageGuard :=
  { hasBpm := false, hasPage := false, isDirty := false, pageId := INVALID }

/-- `Drop()`: if `bpm_` and `page_` are non-null, unpin the page and null the
fields; otherwise do nothing.  Returns the new guard state and the actions
performed. -/
def drop (g : BasicPageGuard) : BasicPageGuard × List GuardAction :=
  if g.hasBpm ∧ g.hasPage then
    ({ empty with pageId := g.pageId }, [.unpinPage g.pageId g.isDirty])
  else (g, [])

/-- The move constructor: the target takes the fields, the source is nulled. -/
def moveFrom (that : BasicPageGuard) : BasicPageGuard × BasicPageGuard :=
  (that, { that with hasBpm := false, hasPage := false, isDirty := false })

/-- The destructor just calls `Drop()`. -/
def destruct (g : BasicPageGuard) : BasicPageGuard × List GuardAction := g.drop

end BasicPageGuard

structure ReadPageGuard where
  guard : BasicPageGuard
  alreadyUnlock : Bool
  deriving Repr, DecidableEq

namespace ReadPageGuard

/-- `ReadPageGuard::Drop()`: if the page is non-null and the latch was not
already released, release the read latch and drop the inner guard. -/
def drop (g : ReadPageGuard) : ReadPageGuard × List GuardAction :=
  if g.guard.hasPage ∧ g.alreadyUnlock = false then
    let inner := g.guard.drop
    ({ guard := inner.1, alreadyUnlock := true },
      .rUnlatch g.guard.pageId :: inner.2)
  else (g, [])

/-- The move constructor: the target takes the fields with
`already_unlock_ = false`; the source gets `already_unlock_ = true` and a
nulled inner guard. -/
def moveFrom (that : ReadPageGuard) : ReadPageGuard × ReadPageGuard :=
  ({ guard := that.guard, alreadyUnlock := false },
    { guard :=
        { that.guard with hasBpm := false, hasPage := false, isDirty := false },
      alreadyUnlock := true })

/-- The destructor just calls `Drop()`. -/
def destruct (g : ReadPageGuard) : ReadPageGuard × List GuardAction := g.drop

end ReadPageGuard

structure WritePageGuard where
  guard : BasicPageGuard
  alreadyUnlock : Bool
  deriving Repr, DecidableEq

namespace WritePageGuard

/-- `WritePageGuard::Drop()`: release the write latch then drop the inner
guard, at most once. -/
def drop (g : WritePageGuard) : WritePageGuard × List GuardAction :=
  if g.guard.hasPage ∧ g.alreadyUnlock = false then
    let inner := g.guard.drop
    ({ guard := inner.1, alreadyUnlock := true },
      .wUnlatch g.guard.pageId :: inner.2)
  else (g, [])

/-- The move constructor for write guards, identical in structure to the
read-guard one. -/
def moveFrom (that : WritePageGuard) : WritePageGuard × WritePageGuard :=
  ({ guard := that.guard, alreadyUnlock := false },
    { guard :=
        { that.guard with hasBpm := false, hasPage := false, isDirty := false },
      alreadyUnlock := true })

/-- The destructor just calls `Drop()`. -/
def destruct (g : WritePageGuard) : WritePageGuard × List GuardAction := g.drop

end WritePageGuard

/-- How many unpin actions an action list contains. -/
def countUnpins (l : List GuardAction) : Nat :=
  (l.filter fun a => match a with | .unpinPage _ _ => true | _ => false).length

/-- C8: for every page guard (basic, read or write), a first `Drop` releases
at most one pin, a second `Drop` is a no-op (no action at all), the
destructor of a dropped guard performs nothing, and after a move the
moved-from guard's `Drop` and destructor perform nothing. -/
theorem page_guard_drop_idempotent_move_empties :
    (∀ g : BasicPageGuard,
      countUnpins g.drop.2 ≤ 1 ∧ g.drop.1.drop.2 = [] ∧
        g.drop.1.destruct.2 = [] ∧
        (g.moveFrom.2.drop.2 = [] ∧ g.moveFrom.2.destruct.2 = [])) ∧
    (∀ g : ReadPageGuard,
      countUnpins g.drop.2 ≤ 1 ∧ g.drop.1.drop.2 = [] ∧
        g.drop.1.destruct.2 = [] ∧
        (g.moveFrom.2.drop.2 = [] ∧ g.moveFrom.2.destruct.2 = [])) ∧
    (∀ g : WritePageGuard,
      countUnpins g.drop.2 ≤ 1 ∧ g.drop.1.drop.2 = [] ∧
        g.drop.1.destruct.2 = [] ∧
        (g.moveFrom.2.drop.2 = [] ∧ g.moveFrom.2.destruct.2 = [])) := by
  refine ⟨fun g => ?_, fun g => ?_, fun g => ?_⟩
  · by_cases h : g.hasBpm ∧ g.hasPage <;>
      simp [BasicPageGuard.drop, BasicPageGuard.destruct,
        BasicPageGuard.moveFrom, BasicPageGuard.empty, countUnpins, h]
  · by_cases h : g.guard.hasPage ∧ g.alreadyUnlock = false
    · by_cases h2 : g.guard.hasBpm <;>
        simp [ReadPageGuard.drop, ReadPageGuard.destruct,
          ReadPageGuard.moveFrom, BasicPageGuard.drop, BasicPageGuard.empty,
          countUnpins, h, h2]
    · simp [ReadPageGuard.drop, ReadPageGuard.destruct,
        ReadPageGuard.moveFrom, countUnpins, h]
  · by_cases h : g.guard.hasPage ∧ g.alreadyUnlock = false
    · by_cases h2 : g.guard.hasBpm <;>
        simp [WritePageGuard.drop, WritePageGuard.destruct,
          WritePageGuard.moveFrom, BasicPageGuard.drop, BasicPageGuard.empty,
          countUnpins, h, h2]
    · simp [WritePageGuard.drop, WritePageGuard.destruct,
        WritePageGuard.moveFrom, countUnpins, h]

/-! ## Lock manager: modes, compatibility, grant predicate
(src/concurrency/lock_manager.cpp) -/

inductive LockMode
  | IS | IX | S | SIX | X
  deriving Repr, DecidableEq

inductive TransactionState
  | growing | shrinking | committed | aborted
  deriving Repr, DecidableEq

structure Txn where
  txnId : Int
  state : TransactionState
  deriving Repr, DecidableEq

structure LockRequest where
  txnId : Int
  lockMode : LockMode
  granted : Bool
  deriving Repr, DecidableEq

structure LockRequestQueue where
  requestQueue : List LockRequest
  upgrading : Int
  deriving Repr, DecidableEq

/-- `LockManager::AreLocksCompatible(l1, l2)`: `l1` is the already granted
mode, `l2` the requested one. -/
def areLocksCompatible (l1 l2 : LockMode) : Bool :=
  match l1 with
  | .IS => if l2 = .X then false else true
  | .IX => if l2 ≠ .IS ∧ l2 ≠ .IX then false else true
  | .S => if l2 ≠ .S ∧ l2 ≠ .IS then false else true
  | .SIX => if l2 ≠ .IS then false else true
  | .X => false

/-- The five-mode compatibility matrix exactly as the specification draws it
(rows = granted, columns = requested). -/
def specCompatMatrix (granted requested : LockMode) : Bool :=
  match granted, requested with
  | .IS, .IS => true  | .IS, .IX => true  | .IS, .S => true
  | .IS, .SIX => true | .IS, .X => false
  | .IX, .IS => true  | .IX, .IX => true  | .IX, .S => false
  | .IX, .SIX => false | .IX, .X => false
  | .S, .IS => true   | .S, .IX => false  | .S, .S => true
  | .S, .SIX => false | .S, .X => false
  | .SIX, .IS => true | .SIX, .IX => false | .SIX, .S => false
  | .SIX, .SIX => false | .SIX, .X => false
  | .X, _ => false

/-- The FIFO scan at the end of `GrantAllowed`: walking the queue from the
front, succeed on reaching this transaction's own request, fail on an
earlier ungranted incompatible request. -/
def fifoScan (tid : Int) (mode : LockMode) : List LockRequest → Bool
  | [] => false
  | r :: rs =>
    if r.txnId = tid then true
    else if r.granted = false ∧ areLocksCompatible r.lockMode mode = false then
      false
    else fifoScan tid mode rs

/-- `LockManager::GrantAllowed(txn, queue, mode)`. -/
def grantAllowed (txn : Txn) (q : LockRequestQueue) (mode : LockMode) : Bool :=
  if txn.state = .aborted ∨ txn.state = .committed then false
  else if q.requestQueue.any fun r =>
      r.granted && !areLocksCompatible r.lockMode mode then false
  else if q.upgrading = txn.txnId then true
  else if q.upgrading ≠ INVALID then false
  else fifoScan txn.txnId mode q.requestQueue

/-- The requests strictly earlier in FIFO order than the first request of
transaction `tid`. -/
def beforeMine (tid : Int) (l : List LockRequest) : List LockRequest :=
  l.takeWhile fun r => !(r.txnId == tid)

/-- The grant predicate as the specification words it: (a) the request is
compatible (per the matrix) with every currently granted request; (b) if the
queue's `upgrading` transaction is set, only that transaction may be granted,
otherwise no ungranted request earlier in FIFO order may be incompatible with
this one. -/
def GrantSpec (txn : Txn) (q : LockRequestQueue) (mode : LockMode) : Prop :=
  (∀ r ∈ q.requestQueue, r.granted = true →
      specCompatMatrix r.lockMode mode = true) ∧
    (if q.upgrading ≠ INVALID then q.upgrading = txn.txnId
     else ∀ r ∈ beforeMine txn.txnId q.requestQueue,
       r.granted = false → specCompatMatrix r.lockMode mode = true)

/-- The source's compatibility test coincides with the specification's
matrix. -/
theorem areLocksCompatible_eq_specCompatMatrix :
    ∀ l1 l2, areLocksCompatible l1 l2 = specCompatMatrix l1 l2 := by
  intro l1 l2
  cases l1 <;> cases l2 <;> rfl

theorem beforeMine_cons (tid : Int) (r : LockRequest) (rs : List LockRequest) :
    beforeMine tid (r :: rs) =
      if r.txnId = tid then [] else r :: beforeMine tid rs := by
  unfold beforeMine
  rcases Bool.eq_false_or_eq_true (r.txnId == tid) with hb | hb
  · have h : r.txnId = tid := by simpa using hb
    rw [if_pos h]
    simp [List.takeWhile, hb]
  · have h : ¬r.txnId = tid := by simpa using hb
    rw [if_neg h]
    simp [List.takeWhile, hb]

theorem fifoScan_iff (tid : Int) (mode : LockMode) :
    ∀ l : List LockRequest, (∃ r ∈ l, r.txnId = tid) →
      (fifoScan tid mode l = true ↔
        ∀ r ∈ beforeMine tid l,
          r.granted = false → specCompatMatrix r.lockMode mode = true) := by
  intro l
  induction l with
  | nil => intro h; simp at h
  | cons r rs ih =>
    intro hmem
    rw [beforeMine_cons]
    by_cases hr : r.txnId = tid
    · simp [fifoScan, hr]
    · have hmem' : ∃ r' ∈ rs, r'.txnId = tid := by
        rcases hmem with ⟨r', hr', he⟩
        rcases List.mem_cons.mp hr' with h | h
        · exact absurd (h ▸ he) hr
        · exact ⟨r', h, he⟩
      rw [if_neg hr]
      by_cases hbad : r.granted = false ∧ areLocksCompatible r.lockMode mode = false
      · have hspec : specCompatMatrix r.lockMode mode = false := by
          rw [← areLocksCompatible_eq_specCompatMatrix]; exact hbad.2
        simp only [fifoScan, if_neg hr, if_pos hbad]
        constructor
        · intro h; exact absurd h (by simp)
        · intro h
          exact absurd (h r (List.mem_cons_self r _) hbad.1) (by simp [hspec])
      · simp only [fifoScan, if_neg hr, if_neg hbad]
        rw [ih hmem']
        constructor
        · intro h r' hr' hg
          rcases List.mem_cons.mp hr' with h' | h'
          · subst h'
            rcases not_and_or.mp hbad with hb | hb
            · exact absurd hg hb
            · rw [← areLocksCompatible_eq_specCompatMatrix]
              rcases Bool.eq_false_or_eq_true
                  (areLocksCompatible r'.lockMode mode) with hc | hc
              · exact hc
              · exact absurd hc hb
          · exact h r' h' hg
        · intro h r' hr' hg; exact h r' (List.mem_cons_of_mem r hr') hg

/-- C6: for every lock-request queue state, the grant predicate holds for a
waiting (active, enqueued, valid-id) request exactly when (a) its mode is
compatible, per the five-mode matrix with rows = granted and columns =
requested, with the mode of every currently granted request, and (b) if the
queue's upgrading transaction is set, only that transaction may be granted,
and otherwise no ungranted request earlier in FIFO order is incompatible
with this one. -/
theorem grantAllowed_iff_grantSpec (txn : Txn) (q : LockRequestQueue)
    (mode : LockMode)
    (hactive : txn.state ≠ .aborted ∧ txn.state ≠ .committed)
    (hvalid : txn.txnId ≠ INVALID)
    (henq : ∃ r ∈ q.requestQueue, r.txnId = txn.txnId) :
    grantAllowed txn q mode = true ↔ GrantSpec txn q mode := by
  have hstate : ¬(txn.state = .aborted ∨ txn.state = .committed) := by
    rcases hactive with ⟨h1, h2⟩; rintro (h | h) <;> contradiction
  unfold grantAllowed GrantSpec
  rw [if_neg hstate]
  by_cases hgr : q.requestQueue.any fun r =>
      r.granted && !areLocksCompatible r.lockMode mode
  · rw [if_pos hgr]
    simp only [List.any_eq_true, Bool.and_eq_true, Bool.not_eq_true'] at hgr
    rcases hgr with ⟨r, hr, hg, hc⟩
    constructor
    · intro h; exact absurd h (by simp)
    · rintro ⟨ha, _⟩
      have := ha r hr hg
      rw [← areLocksCompatible_eq_specCompatMatrix, hc] at this
      exact absurd this (by simp)
  · rw [if_neg hgr]
    have hcomp : ∀ r ∈ q.requestQueue, r.granted = true →
        specCompatMatrix r.lockMode mode = true := by
      intro r hr hg
      rw [← areLocksCompatible_eq_specCompatMatrix]
      by_contra hc
      refine hgr (List.any_eq_true.mpr ⟨r, hr, ?_⟩)
      rw [hg, Bool.eq_false_iff.mpr hc]
      rfl
    by_cases hup : q.upgrading = txn.txnId
    · have hinv : q.upgrading ≠ INVALID := hup ▸ hvalid
      rw [if_pos hup, if_pos hinv]
      constructor
      · intro _; exact ⟨hcomp, hup⟩
      · intro _; rfl
    · rw [if_neg hup]
      by_cases hinv : q.upgrading ≠ INVALID
      · rw [if_pos hinv, if_pos hinv]
        constructor
        · intro h; exact absurd h (by simp)
        · rintro ⟨_, h⟩; exact absurd h hup
      · rw [if_neg hinv, if_neg hinv]
        rw [fifoScan_iff txn.txnId mode q.requestQueue henq]
        constructor
        · intro h; exact ⟨hcomp, h⟩
        · rintro ⟨_, h⟩; exact h

/-- Witness for C6: a queue holding a granted IS request of transaction 1 and
an ungranted S request of transaction 2, no upgrade in progress: the grant
predicate holds for transaction 2 in both formulations. -/
theorem grantAllowed_iff_grantSpec_witness :
    (({ txnId := 2, state := .growing } : Txn).state ≠ .aborted ∧
        ({ txnId := 2, state := .growing } : Txn).state ≠ .committed) ∧
      ({ txnId := 2, state := .growing } : Txn).txnId ≠ INVALID ∧
      (∃ r ∈ ({ requestQueue := [⟨1, .IS, true⟩, ⟨2, .S, false⟩],
                upgrading := INVALID } : LockRequestQueue).requestQueue,
        r.txnId = ({ txnId := 2, state := .growing } : Txn).txnId) ∧
      (grantAllowed { txnId := 2, state := .growing }
          { requestQueue := [⟨1, .IS, true⟩, ⟨2, .S, false⟩],
            upgrading := INVALID } .S = true ↔
        GrantSpec { txnId := 2, state := .growing }
          { requestQueue := [⟨1, .IS, true⟩, ⟨2, .S, false⟩],
            upgrading := INVALID } .S) :=
  ⟨⟨by decide, by decide⟩, by decide, ⟨⟨2, .S, false⟩, by simp, rfl⟩,
    grantAllowed_iff_grantSpec _ _ _ ⟨by decide, by decide⟩ (by decide)
      ⟨⟨2, .S, false⟩, by simp, rfl⟩⟩

/-! ## Deadlock detector (src/concurrency/lock_manager.cpp, Dfs / HasCycle)

The wait-for graph maps a transaction id to the ordered list of transaction
ids it waits on.  `Dfs` sorts the candidate list, walks it depth first with
the current path in `visited`, and on meeting a path member reports as the
victim the maximum id over the closing node and the whole path. -/

/-- The wait-for graph: association list from txn id to its adjacency
list (`waits_for_`). -/
abbrev WaitsFor := List (Int × List Int)

/-- `waits_for_[tid]`: the adjacency list, empty when the key is absent
(matching `std::unordered_map::operator[]` default construction). -/
def adjOf (g : WaitsFor) (t : Int) : List Int := (g.lookup t).getD []

/-- Insert an id into an ascending list, keeping it ascending. -/
def insertAsc (x : Int) : List Int → List Int
  | [] => [x]
  | y :: ys => if x ≤ y then x :: y :: ys else y :: insertAsc x ys

/-- `std::sort` on the candidate list, modelled as insertion sort. -/
def sortIds (l : List Int) : List Int := l.foldr insertAsc []

/-- `LockManager::Dfs`: iterate the (sorted) candidate ids; a candidate
already on the path closes a cycle, and the victim is the maximum of the
candidate and every path member; otherwise push the candidate and recurse
into its (sorted) adjacency.  Recursion depth is bounded by `fuel`; the
bounded model returns `none` where the unbounded C++ recursion would
continue, which only ever hides detections, never invents one. -/
def dfsAux (g : WaitsFor) : Nat → List Int → List Int → Option Int
  | _, _, [] => none
  | 0, visited, t :: _ =>
    if t ∈ visited then some (visited.foldl max t) else none
  | fuel + 1, visited, t :: ts =>
    if t ∈ visited then some (visited.foldl max t)
    else
      match dfsAux g fuel (visited ++ [t]) (sortIds (adjOf g t)) with
      | some v => some v
      | none => dfsAux g fuel visited ts

/-- `LockManager::HasCycle`: start the search from every id with a non-empty
adjacency list (the map iteration order is irrelevant because `Dfs` sorts). -/
def hasCycle (g : WaitsFor) : Option Int :=
  dfsAux g ((g.length + 1) * (g.length + 1))
    [] (sortIds ((g.filter fun p => !p.2.isEmpty).map Prod.fst))

/-- Membership is preserved by the insertion sort. -/
theorem mem_insertAsc {x y : Int} : ∀ l : List Int,
    (y ∈ insertAsc x l ↔ y = x ∨ y ∈ l) := by
  intro l
  induction l with
  | nil => simp [insertAsc]
  | cons a as ih =>
    by_cases h : x ≤ a
    · simp [insertAsc, h]
    · simp only [insertAsc, if_neg h, List.mem_cons, ih]
      tauto

theorem mem_sortIds {y : Int} : ∀ l : List Int, (y ∈ sortIds l ↔ y ∈ l) := by
  intro l
  induction l with
  | nil => simp [sortIds]
  | cons a as ih =>
    simp only [sortIds, List.foldr_cons, mem_insertAsc, List.mem_cons]
    rw [show as.foldr insertAsc [] = sortIds as from rfl, ih]

theorem foldl_max_le : ∀ (l : List Int) (a : Int),
    a ≤ l.foldl max a ∧ ∀ x ∈ l, x ≤ l.foldl max a := by
  intro l
  induction l with
  | nil => intro a; simp
  | cons b bs ih =>
    intro a
    rcases ih (max a b) with ⟨h1, h2⟩
    refine ⟨le_trans (le_max_left a b) h1, ?_⟩
    intro x hx
    rcases List.mem_cons.mp hx with rfl | hx
    · exact le_trans (le_max_right a x) h1
    · exact h2 x hx

theorem foldl_max_mem : ∀ (l : List Int) (a : Int),
    l.foldl max a ∈ a :: l := by
  intro l
  induction l with
  | nil => intro a; simp
  | cons b bs ih =>
    intro a
    rw [List.foldl_cons]
    rcases List.mem_cons.mp (ih (max a b)) with h | h
    · rw [h]
      rcases max_choice a b with hm | hm <;> rw [hm]
      · exact List.mem_cons_self _ _
      · exact List.mem_cons_of_mem _ (List.mem_cons_self _ _)
    · exact List.mem_cons_of_mem _ (List.mem_cons_of_mem _ h)

/-- Soundness of the DFS: whenever it reports a victim `v`, there is a
depth-first path `p` (consecutive wait-for edges) whose last node has an
edge back to some member `t` of `p` (closing a cycle: the suffix of `p`
from `t` on), and `v` is the largest id on the whole path — not
necessarily inside the cycle. -/
theorem dfsAux_sound (g : WaitsFor) :
    ∀ (fuel : Nat) (rely visited : List Int) (v : Int),
      List.Chain' (fun a b => b ∈ adjOf g a) visited →
      (visited = [] ∨ ∀ t ∈ rely, ∃ l, visited.getLast? = some l ∧ t ∈ adjOf g l) →
      dfsAux g fuel visited rely = some v →
      ∃ (p : List Int) (l t : Int),
        List.Chain' (fun a b => b ∈ adjOf g a) p ∧ p.getLast? = some l ∧
          t ∈ p ∧ t ∈ adjOf g l ∧ v ∈ p ∧ ∀ x ∈ p, x ≤ v := by
  intro fuel
  induction fuel with
  | zero =>
    intro rely visited v hchain hrely hrun
    match rely, hrun with
    | t :: ts, hrun =>
      by_cases ht : t ∈ visited
      · rw [dfsAux, if_pos ht] at hrun
        have hne : visited ≠ [] := by
          intro h; rw [h] at ht; exact absurd ht (by simp)
        rcases hrely with h | hrely
        · exact absurd h hne
        rcases hrely t (by simp) with ⟨l, hl, hedge⟩
        refine ⟨visited, l, t, hchain, hl, ht, hedge, ?_, ?_⟩
        · injection hrun with hv
          rcases List.mem_cons.mp (hv ▸ foldl_max_mem visited t) with h | h
          · exact h ▸ ht
          · exact h
        · injection hrun with hv
          intro x hx
          exact hv ▸ (foldl_max_le visited t).2 x hx
      · rw [dfsAux, if_neg ht] at hrun
        exact absurd hrun (by simp)
  | succ fuel ih =>
    intro rely visited v hchain hrely hrun
    cases rely with
    | nil => exact absurd hrun (by simp [dfsAux])
    | cons t ts =>
      by_cases ht : t ∈ visited
      · rw [dfsAux, if_pos ht] at hrun
        have hne : visited ≠ [] := by
          intro h; rw [h] at ht; exact absurd ht (by simp)
        rcases hrely with h | hrely
        · exact absurd h hne
        rcases hrely t (by simp) with ⟨l, hl, hedge⟩
        refine ⟨visited, l, t, hchain, hl, ht, hedge, ?_, ?_⟩
        · injection hrun with hv
          rcases List.mem_cons.mp (hv ▸ foldl_max_mem visited t) with h | h
          · exact h ▸ ht
          · exact h
        · injection hrun with hv
          intro x hx
          exact hv ▸ (foldl_max_le visited t).2 x hx
      · rw [dfsAux, if_neg ht] at hrun
        rcases hcall : dfsAux g fuel (visited ++ [t]) (sortIds (adjOf g t)) with
          _ | w
        · rw [hcall] at hrun
          simp only at hrun
          refine ih ts visited v hchain ?_ hrun
          rcases hrely with h | hrely
          · exact Or.inl h
          · exact Or.inr fun t' ht' => hrely t' (List.mem_cons_of_mem t ht')
        · rw [hcall] at hrun
          simp only [Option.some.injEq] at hrun
          subst hrun
          have hchain' : List.Chain' (fun a b => b ∈ adjOf g a) (visited ++ [t]) := by
            rcases hrely with h | hrely
            · subst h; simp
            · rcases hrely t (by simp) with ⟨l, hl, hedge⟩
              apply List.Chain'.append hchain (by simp)
              intro x hx y hy
              rw [hl, Option.mem_def] at hx
              rw [List.head?_cons, Option.mem_def] at hy
              injection hx with hx
              injection hy with hy
              exact hx ▸ hy ▸ hedge
          have hrely' : visited ++ [t] = [] ∨
              ∀ t' ∈ sortIds (adjOf g t), ∃ l,
                (visited ++ [t]).getLast? = some l ∧ t' ∈ adjOf g l := by
            refine Or.inr fun t' ht' => ⟨t, ?_, (mem_sortIds _).mp ht'⟩
            simp
          exact ih (sortIds (adjOf g t)) (visited ++ [t]) w hchain' hrely' hcall

/-- C5 (amended): whenever `HasCycle` reports a victim `v`, the DFS found a
path `p` of wait-for edges whose last node has an edge back to a path member
`t` (the cycle is the suffix of `p` from `t`), and `v` is the largest txn id
on the whole path `p`; it is therefore at least as large as every member of
the detected cycle, but it may lie on the path outside the cycle. -/
theorem hasCycle_victim_max_of_path (g : WaitsFor) (v : Int)
    (h : hasCycle g = some v) :
    ∃ (p : List Int) (l t : Int),
      List.Chain' (fun a b => b ∈ adjOf g a) p ∧ p.getLast? = some l ∧
        t ∈ p ∧ t ∈ adjOf g l ∧ v ∈ p ∧ ∀ x ∈ p, x ≤ v := by
  exact dfsAux_sound g _ _ [] v (by simp) (Or.inl rfl) h

/-- A cycle in the wait-for graph: a non-empty list of ids with wait-for
edges between consecutive members and from the last back to the first. -/
def IsCycle (g : WaitsFor) (p : List Int) : Prop :=
  p ≠ [] ∧ List.Chain' (fun a b => b ∈ adjOf g a) p ∧
    ∀ l h, p.getLast? = some l → p.head? = some h → h ∈ adjOf g l

/-- In a non-empty chain, every member is the head or has a predecessor in
the chain related to it. -/
theorem chain'_mem_head_or_pred {R : Int → Int → Prop} :
    ∀ (p : List Int) (x : Int), List.Chain' R p → x ∈ p →
      p.head? = some x ∨ ∃ y ∈ p, R y x := by
  intro p
  induction p with
  | nil => intro x _ hx; exact absurd hx (by simp)
  | cons a as ih =>
    intro x hchain hx
    rcases List.mem_cons.mp hx with rfl | hx
    · exact Or.inl rfl
    · rcases List.chain'_cons'.mp hchain with ⟨hhead, htail⟩
      rcases ih x htail hx with hh | ⟨y, hy, hR⟩
      · refine Or.inr ⟨a, List.mem_cons_self _ _, ?_⟩
        exact hhead x hh
      · exact Or.inr ⟨y, List.mem_cons_of_mem _ hy, hR⟩

/-- Every member of a cycle has an incoming edge from some member. -/
theorem cycle_mem_has_pred (g : WaitsFor) (p : List Int) (hc : IsCycle g p) :
    ∀ x ∈ p, ∃ y ∈ p, x ∈ adjOf g y := by
  rcases hc with ⟨hne, hchain, hclose⟩
  intro x hx
  rcases chain'_mem_head_or_pred p x hchain hx with hh | ⟨y, hy, hR⟩
  · refine ⟨p.getLast hne, List.getLast_mem hne, ?_⟩
    exact hclose (p.getLast hne) x (List.getLast?_eq_getLast p hne) hh
  · exact ⟨y, hy, hR⟩

/-- The concrete wait-for graph refuting C5 as stated: transaction 1 waits
on 9, 9 waits on 2, and 2 and 3 wait on each other; the only cycle consists
of 2 and 3, yet the victim reported is 9. -/
def g0 : WaitsFor := [(1, [9]), (9, [2]), (2, [3]), (3, [2])]

theorem g0_adj (y : Int) :
    adjOf g0 y = if y = 1 then [9] else if y = 9 then [2]
      else if y = 2 then [3] else if y = 3 then [2] else [] := by
  by_cases h1 : y = 1
  · subst h1; rfl
  · by_cases h9 : y = 9
    · subst h9; rfl
    · by_cases h2 : y = 2
      · subst h2; rfl
      · by_cases h3 : y = 3
        · subst h3; rfl
        · rw [if_neg h1, if_neg h9, if_neg h2, if_neg h3]
          unfold adjOf g0
          simp only [List.lookup]
          rw [show (y == (1 : Int)) = false by simpa using h1,
            show (y == (9 : Int)) = false by simpa using h9,
            show (y == (2 : Int)) = false by simpa using h2,
            show (y == (3 : Int)) = false by simpa using h3]
          rfl


/-- C5 counterexample: on `g0` the detector reports 9 as the victim, yet 9
lies on no cycle of the wait-for graph at all — it merely sits on the DFS
path leading into the 2↔3 cycle. -/
theorem hasCycle_victim_not_in_cycle :
    hasCycle g0 = some 9 ∧ ∀ p, IsCycle g0 p → (9 : Int) ∉ p := by
  refine ⟨by decide, ?_⟩
  intro p hc h9
  have hpred := cycle_mem_has_pred g0 p hc
  rcases hpred 9 h9 with ⟨y, hy, hyedge⟩
  have hy1 : y = 1 := by
    by_contra hne
    rw [g0_adj] at hyedge
    by_cases e9 : y = 9
    · subst e9; simp at hyedge
    · by_cases e2 : y = 2
      · subst e2; simp at hyedge
      · by_cases e3 : y = 3
        · subst e3; simp at hyedge
        · rw [if_neg hne, if_neg e9, if_neg e2, if_neg e3] at hyedge
          simp at hyedge
  subst hy1
  rcases hpred 1 hy with ⟨z, _, hzedge⟩
  rw [g0_adj] at hzedge
  by_cases f1 : z = 1
  · subst f1; simp at hzedge
  · by_cases f9 : z = 9
    · subst f9; simp at hzedge
    · by_cases f2 : z = 2
      · subst f2; simp at hzedge
      · by_cases f3 : z = 3
        · subst f3; simp at hzedge
        · rw [if_neg f1, if_neg f9, if_neg f2, if_neg f3] at hzedge
          simp at hzedge

/-- Witness for the amended C5 theorem at the concrete graph `g0`. -/
theorem hasCycle_victim_max_of_path_witness :
    hasCycle g0 = some 9 ∧
      ∃ (p : List Int) (l t : Int),
        List.Chain' (fun a b => b ∈ adjOf g0 a) p ∧ p.getLast? = some l ∧
          t ∈ p ∧ t ∈ adjOf g0 l ∧ (9 : Int) ∈ p ∧ ∀ x ∈ p, x ≤ 9 :=
  ⟨by decide, hasCycle_victim_max_of_path g0 9 (by decide)⟩

/-! ## LRU-K replacer (src/buffer/lru_k_replacer.cpp)

The node type and its distance computation live in `lru_k_replacer.h`,
which is not part of the provided sources; they are modelled from the
specification.  `Evict` itself follows the source loop.  `size_t`
arithmetic uses `2 ^ 64 - 1` as `std::numeric_limits<size_t>::max()`. -/

/-- `std::numeric_limits<size_t>::max()`, the +infinity marker of backward
K-distances. -/
def sizeTMax : Nat := 2 ^ 64 - 1

/-- Modelled from the spec: the per-frame LRU-K node — a bounded history of
the last up-to-K access timestamps (most recent at the front, oldest at the
back), an evictable flag, and the frame id (`lru_k_replacer.h` is not under
the provided sources). -/
structure LRUKNode where
  history : List Nat
  fid : Int
  isEvictable : Bool
  deriving Repr, DecidableEq

/-- Modelled from the spec: `GetBackDist(now)` — +infinity when fewer than K
accesses are recorded, otherwise `now` minus the timestamp of the K-th most
recent access (`lru_k_replacer.h` is not under the provided sources). -/
def getBackDist (n : LRUKNode) (k now : Nat) : Nat :=
  if n.history.length < k then sizeTMax else now - n.history.getD (k - 1) 0

/-- `history_.back()`: the oldest recorded timestamp. -/
def oldestTs (n : LRUKNode) : Nat := (n.history.getLast?).getD 0

structure LRUKReplacer where
  nodes : List LRUKNode
  currSize : Nat
  currentTimestamp : Nat
  k : Nat
  replacerSize : Nat
  deriving Repr, DecidableEq

/-- One iteration of the `Evict` scan: the accumulator carries
`(evict_id, max_dist, min_timestamp)` with `evict_id = -1` meaning no
candidate yet, `max_dist` initially 0 and `min_timestamp` initially
`size_t` max. -/
def evictStep (k now : Nat) (acc : Int × Nat × Nat) (n : LRUKNode) :
    Int × Nat × Nat :=
  if n.isEvictable then
    let curDist := getBackDist n k now
    let curMinTs := oldestTs n
    if curDist = sizeTMax then
      if acc.1 = -1 ∨ curMinTs < acc.2.2 then (n.fid, curDist, curMinTs)
      else acc
    else if curDist > acc.2.1 then (n.fid, curDist, acc.2.2)
    else acc
  else acc

/-- `LRUKReplacer::Evict`: fail when `curr_size_ == 0`, otherwise scan all
nodes for the victim and, if one was found, erase it and decrement
`curr_size_`. -/
def evict (r : LRUKReplacer) : Option (Int × LRUKReplacer) :=
  if r.currSize = 0 then none
  else
    let res := r.nodes.foldl (evictStep r.k r.currentTimestamp)
      (-1, 0, sizeTMax)
    if res.1 ≠ -1 then
      some (res.1,
        { r with nodes := r.nodes.filter (fun m => !(m.fid == res.1)),
                 currSize := r.currSize - 1 })
    else none

/-- Modelled from the spec: `RecordAccess` — append the current timestamp at
the front of the node's history truncating to K entries, creating the node
if absent, then advance the clock (`LRUKNode::RecordAccess` is in the
missing header).  The `BUSTUB_ASSERT` on the frame id is modelled as
`none`. -/
def replacerRecordAccess (r : LRUKReplacer) (fid : Int) :
    Option LRUKReplacer :=
  if 0 ≤ fid ∧ fid < (r.replacerSize : Int) then
    let nodes :=
      if r.nodes.any fun n => n.fid == fid then r.nodes
      else r.nodes ++ [{ history := [], fid := fid, isEvictable := false }]
    some { r with
      nodes := nodes.map (fun n =>
        if n.fid == fid then
          { n with history := (r.currentTimestamp :: n.history).take r.k }
        else n),
      currentTimestamp := r.currentTimestamp + 1 }
  else none

/-- `LRUKReplacer::SetEvictable`: adjust the flag and `curr_size_` when it
changes; unknown frames are a no-op; invalid frame ids hit the assert. -/
def replacerSetEvictable (r : LRUKReplacer) (fid : Int) (flag : Bool) :
    Option LRUKReplacer :=
  if 0 ≤ fid ∧ fid < (r.replacerSize : Int) then
    match r.nodes.find? fun n => n.fid == fid with
    | none => some r
    | some n =>
      if n.isEvictable ≠ flag then
        some { r with
          nodes := r.nodes.map (fun m =>
            if m.fid == fid then { m with isEvictable := flag } else m),
          currSize := if flag then r.currSize + 1 else r.currSize - 1 }
      else some r
  else none

/-- `LRUKReplacer::Remove`: delete the node; removing a present but
non-evictable frame throws (modelled as `none`), as does an invalid id. -/
def replacerRemove (r : LRUKReplacer) (fid : Int) : Option LRUKReplacer :=
  if 0 ≤ fid ∧ fid < (r.replacerSize : Int) then
    match r.nodes.find? fun n => n.fid == fid with
    | none => some r
    | some n =>
      if n.isEvictable then
        some { r with nodes := r.nodes.filter (fun m => !(m.fid == fid)),
                      currSize := r.currSize - 1 }
      else none
  else none

/-- The eviction-priority order of the claim: `a` must be evicted before `b`
iff `a`'s backward K-distance is larger, where fewer than K accesses mean
+infinity, and ties among +infinity nodes go to the earlier oldest
timestamp. -/
def EvictsBefore (k now : Nat) (a b : LRUKNode) : Prop :=
  (getBackDist a k now = sizeTMax ∧ getBackDist b k now = sizeTMax ∧
      oldestTs a < oldestTs b) ∨
    (getBackDist a k now = sizeTMax ∧ getBackDist b k now ≠ sizeTMax) ∨
    (getBackDist a k now ≠ sizeTMax ∧ getBackDist b k now ≠ sizeTMax ∧
      getBackDist a k now > getBackDist b k now)

/-- The well-formedness facts about a node that the eviction-order proof
uses: a non-empty history of timestamps below the clock, and a non-negative
frame id. -/
def NodeWF (now : Nat) (n : LRUKNode) : Prop :=
  n.history ≠ [] ∧ (∀ t ∈ n.history, t < now) ∧ 0 ≤ n.fid

/-- The invariant carried through the `Evict` scan: either no evictable node
has been seen and the accumulator is still the initial one, or the
accumulator holds the unique best node seen so far. -/
def EvictAcc (k now : Nat) (seen : List LRUKNode) (acc : Int × Nat × Nat) :
    Prop :=
  ((∀ n ∈ seen, n.isEvictable = false) ∧ acc = (-1, 0, sizeTMax)) ∨
    (∃ b ∈ seen, b.isEvictable = true ∧ acc.1 = b.fid ∧
      ((getBackDist b k now = sizeTMax ∧ acc.2.1 = sizeTMax ∧
          acc.2.2 = oldestTs b) ∨
        (getBackDist b k now ≠ sizeTMax ∧ acc.2.1 = getBackDist b k now ∧
          acc.2.2 = sizeTMax ∧
          ∀ m ∈ seen, m.isEvictable = true →
            getBackDist m k now ≠ sizeTMax)) ∧
      ∀ m ∈ seen, m.isEvictable = true → m ≠ b → EvictsBefore k now b m)

theorem getD_mem_of_lt (l : List Nat) (n d : Nat) (h : n < l.length) :
    l.getD n d ∈ l := by
  rw [List.getD_eq_getElem?_getD, List.getElem?_eq_getElem h]
  simp only [Option.getD_some]
  exact List.getElem_mem h

theorem oldestTs_mem (n : LRUKNode) (h : n.history ≠ []) :
    oldestTs n ∈ n.history := by
  unfold oldestTs
  rw [List.getLast?_eq_getLast n.history h]
  simp only [Option.getD_some]
  exact List.getLast_mem h

theorem oldestTs_lt (now : Nat) (n : LRUKNode) (hwf : NodeWF now n) :
    oldestTs n < now :=
  hwf.2.1 _ (oldestTs_mem n hwf.1)

theorem getBackDist_max_iff (n : LRUKNode) (k now : Nat)
    (hnow : now < sizeTMax) :
    getBackDist n k now = sizeTMax ↔ n.history.length < k := by
  unfold getBackDist
  by_cases h : n.history.length < k
  · simp [h]
  · simp only [h, if_false, iff_false]
    omega

theorem getBackDist_pos (n : LRUKNode) (k now : Nat) (hk : 0 < k)
    (hwf : NodeWF now n) (hfin : ¬n.history.length < k) :
    0 < getBackDist n k now := by
  unfold getBackDist
  rw [if_neg hfin]
  have hmem := getD_mem_of_lt n.history (k - 1) 0 (by omega)
  have := hwf.2.1 _ hmem
  omega

theorem getBackDist_ne_of_disjoint (m n : LRUKNode) (k now : Nat)
    (hk : 0 < k) (hwfm : NodeWF now m) (hwfn : NodeWF now n)
    (hfm : ¬m.history.length < k) (hfn : ¬n.history.length < k)
    (hdisj : ∀ t ∈ m.history, t ∉ n.history) :
    getBackDist m k now ≠ getBackDist n k now := by
  unfold getBackDist
  rw [if_neg hfm, if_neg hfn]
  have hmm := getD_mem_of_lt m.history (k - 1) 0 (by omega)
  have hmn := getD_mem_of_lt n.history (k - 1) 0 (by omega)
  have h1 := hwfm.2.1 _ hmm
  have h2 := hwfn.2.1 _ hmn
  intro heq
  have : m.history.getD (k - 1) 0 = n.history.getD (k - 1) 0 := by omega
  exact hdisj _ hmm (this ▸ hmn)

theorem oldestTs_ne_of_disjoint (m n : LRUKNode)
    (hm : m.history ≠ []) (hn : n.history ≠ [])
    (hdisj : ∀ t ∈ m.history, t ∉ n.history) :
    oldestTs m ≠ oldestTs n := by
  intro heq
  exact hdisj _ (oldestTs_mem m hm) (heq ▸ oldestTs_mem n hn)

theorem mem_append_singleton {m n : LRUKNode} {seen : List LRUKNode} :
    m ∈ seen ++ [n] ↔ m ∈ seen ∨ m = n := by
  simp [List.mem_append]

theorem evictAcc_step (k now : Nat) (hk : 0 < k) (hnow : now < sizeTMax)
    (seen : List LRUKNode) (n : LRUKNode) (acc : Int × Nat × Nat)
    (hwfn : NodeWF now n) (hwfs : ∀ m ∈ seen, NodeWF now m)
    (hdisj : ∀ m ∈ seen, ∀ t ∈ m.history, t ∉ n.history)
    (hacc : EvictAcc k now seen acc) :
    EvictAcc k now (seen ++ [n]) (evictStep k now acc n) := by
  by_cases hev : n.isEvictable = true
  · unfold evictStep
    rw [if_pos hev]
    simp only
    by_cases hinf : getBackDist n k now = sizeTMax
    · -- the new node has an infinite distance
      rw [if_pos hinf]
      rcases hacc with ⟨hall, haccv⟩ | ⟨b, hb, hbev, hbid, hbdata, hbbest⟩
      · -- no evictable seen yet: the new node is taken
        rw [haccv]
        rw [if_pos (Or.inl rfl)]
        right
        refine ⟨n, mem_append_singleton.mpr (Or.inr rfl), hev, rfl,
          Or.inl ⟨hinf, hinf ▸ rfl, rfl⟩, ?_⟩
        intro m hm hmev hmne
        rcases mem_append_singleton.mp hm with hm | rfl
        · exact absurd hmev (by simp [hall m hm])
        · exact absurd rfl hmne
      · have hbid' : acc.1 ≠ -1 := by
          rw [hbid]
          have := (hwfs b hb).2.2
          omega
        rcases hbdata with ⟨hbinf, hmd, hmt⟩ | ⟨hbfin, hmd, hmt, hallfin⟩
        · -- best so far is infinite: compare oldest timestamps
          by_cases hlt : oldestTs n < acc.2.2
          · rw [if_pos (Or.inr hlt)]
            right
            refine ⟨n, mem_append_singleton.mpr (Or.inr rfl), hev, rfl,
              Or.inl ⟨hinf, hinf ▸ rfl, rfl⟩, ?_⟩
            intro m hm hmev hmne
            rcases mem_append_singleton.mp hm with hm | rfl
            · by_cases hmb : m = b
              · subst hmb
                exact Or.inl ⟨hinf, hbinf, hmt ▸ hlt⟩
              · rcases hbbest m hm hmev hmb with ⟨h1, h2, h3⟩ | ⟨h1, h2⟩ |
                  ⟨h1, h2, h3⟩
                · exact Or.inl ⟨hinf, h2, lt_trans (hmt ▸ hlt) h3⟩
                · exact Or.inr (Or.inl ⟨hinf, h2⟩)
                · exact absurd hbinf h1
            · exact absurd rfl hmne
          · rw [if_neg (by push_neg; exact ⟨hbid', le_of_not_lt hlt⟩)]
            right
            refine ⟨b, mem_append_singleton.mpr (Or.inl hb), hbev, hbid,
              Or.inl ⟨hbinf, hmd, hmt⟩, ?_⟩
            intro m hm hmev hmne
            rcases mem_append_singleton.mp hm with hm | rfl
            · exact hbbest m hm hmev hmne
            · have hne : oldestTs b ≠ oldestTs m :=
                oldestTs_ne_of_disjoint b m (hwfs b hb).1 hwfn.1 (hdisj b hb)
              refine Or.inl ⟨hbinf, hinf, ?_⟩
              rw [hmt] at hlt
              omega
        · -- best so far is finite: an infinite node always wins
          have hlt : oldestTs n < acc.2.2 := by
            rw [hmt]
            have := oldestTs_lt now n hwfn
            omega
          rw [if_pos (Or.inr hlt)]
          right
          refine ⟨n, mem_append_singleton.mpr (Or.inr rfl), hev, rfl,
            Or.inl ⟨hinf, hinf ▸ rfl, rfl⟩, ?_⟩
          intro m hm hmev hmne
          rcases mem_append_singleton.mp hm with hm | rfl
          · by_cases hmb : m = b
            · subst hmb
              exact Or.inr (Or.inl ⟨hinf, hbfin⟩)
            · exact Or.inr (Or.inl ⟨hinf, hallfin m hm hmev⟩)
          · exact absurd rfl hmne
    · -- the new node has a finite distance
      rw [if_neg hinf]
      have hfinlen : ¬n.history.length < k := by
        intro h
        exact hinf ((getBackDist_max_iff n k now hnow).mpr h)
      rcases hacc with ⟨hall, haccv⟩ | ⟨b, hb, hbev, hbid, hbdata, hbbest⟩
      · -- no evictable seen yet: positive distance beats the initial 0
        rw [haccv]
        rw [if_pos (getBackDist_pos n k now hk hwfn hfinlen)]
        right
        refine ⟨n, mem_append_singleton.mpr (Or.inr rfl), hev, rfl,
          Or.inr ⟨hinf, rfl, rfl, ?_⟩, ?_⟩
        · intro m hm hmev
          rcases mem_append_singleton.mp hm with hm | rfl
          · exact absurd hmev (by simp [hall m hm])
          · exact hinf
        · intro m hm hmev hmne
          rcases mem_append_singleton.mp hm with hm | rfl
          · exact absurd hmev (by simp [hall m hm])
          · exact absurd rfl hmne
      · rcases hbdata with ⟨hbinf, hmd, hmt⟩ | ⟨hbfin, hmd, hmt, hallfin⟩
        · -- best is infinite, finite candidate loses
          have hle : getBackDist n k now ≤ now := by
            unfold getBackDist
            rw [if_neg hfinlen]
            omega
          rw [if_neg (by rw [hmd]; omega)]
          right
          refine ⟨b, mem_append_singleton.mpr (Or.inl hb), hbev, hbid,
            Or.inl ⟨hbinf, hmd, hmt⟩, ?_⟩
          intro m hm hmev hmne
          rcases mem_append_singleton.mp hm with hm | rfl
          · exact hbbest m hm hmev hmne
          · exact Or.inr (Or.inl ⟨hbinf, hinf⟩)
        · have hbfinlen : ¬b.history.length < k := by
            intro h
            exact hbfin ((getBackDist_max_iff b k now hnow).mpr h)
          have hdistne : getBackDist b k now ≠ getBackDist n k now :=
            getBackDist_ne_of_disjoint b n k now hk (hwfs b hb) hwfn
              hbfinlen hfinlen (hdisj b hb)
          by_cases hgt : getBackDist n k now > acc.2.1
          · rw [if_pos hgt]
            right
            refine ⟨n, mem_append_singleton.mpr (Or.inr rfl), hev, rfl,
              Or.inr ⟨hinf, rfl, hmt, ?_⟩, ?_⟩
            · intro m hm hmev
              rcases mem_append_singleton.mp hm with hm | rfl
              · exact hallfin m hm hmev
              · exact hinf
            · intro m hm hmev hmne
              rcases mem_append_singleton.mp hm with hm | rfl
              · by_cases hmb : m = b
                · subst hmb
                  exact Or.inr (Or.inr ⟨hinf, hbfin, hmd ▸ hgt⟩)
                · rcases hbbest m hm hmev hmb with ⟨h1, h2, h3⟩ | ⟨h1, h2⟩ |
                    ⟨h1, h2, h3⟩
                  · exact absurd h1 hbfin
                  · exact absurd h1 hbfin
                  · refine Or.inr (Or.inr ⟨hinf, h2, ?_⟩)
                    rw [hmd] at hgt
                    omega
              · exact absurd rfl hmne
          · rw [if_neg hgt]
            right
            refine ⟨b, mem_append_singleton.mpr (Or.inl hb), hbev, hbid,
              Or.inr ⟨hbfin, hmd, hmt, ?_⟩, ?_⟩
            · intro m hm hmev
              rcases mem_append_singleton.mp hm with hm | rfl
              · exact hallfin m hm hmev
              · exact hinf
            · intro m hm hmev hmne
              rcases mem_append_singleton.mp hm with hm | rfl
              · exact hbbest m hm hmev hmne
              · refine Or.inr (Or.inr ⟨hbfin, hinf, ?_⟩)
                rw [hmd] at hgt
                omega
  · have hstep : evictStep k now acc n = acc := by
      unfold evictStep
      rw [if_neg hev]
    rw [hstep]
    have hevf : n.isEvictable = false := by
      rcases Bool.eq_false_or_eq_true n.isEvictable with h | h
      · exact absurd h hev
      · exact h
    rcases hacc with ⟨hall, haccv⟩ | ⟨b, hb, hbev, hbid, hbdata, hbbest⟩
    · left
      refine ⟨?_, haccv⟩
      intro m hm
      rcases mem_append_singleton.mp hm with hm | rfl
      · exact hall m hm
      · exact hevf
    · right
      refine ⟨b, mem_append_singleton.mpr (Or.inl hb), hbev, hbid, ?_, ?_⟩
      · rcases hbdata with h | ⟨h1, h2, h3, h4⟩
        · exact Or.inl h
        · refine Or.inr ⟨h1, h2, h3, ?_⟩
          intro m hm hmev
          rcases mem_append_singleton.mp hm with hm | rfl
          · exact h4 m hm hmev
          · exact absurd hmev (by simp [hevf])
      · intro m hm hmev hmne
        rcases mem_append_singleton.mp hm with hm | rfl
        · exact hbbest m hm hmev hmne
        · exact absurd hmev (by simp [hevf])

/-- Pairwise disjoint histories (the clock hands out each timestamp to one
node only). -/
def HistDisjoint (m n : LRUKNode) : Prop := ∀ t ∈ m.history, t ∉ n.history

theorem evictAcc_fold (k now : Nat) (hk : 0 < k) (hnow : now < sizeTMax) :
    ∀ (l seen : List LRUKNode) (acc : Int × Nat × Nat),
      (∀ m ∈ seen ++ l, NodeWF now m) →
      List.Pairwise HistDisjoint (seen ++ l) →
      EvictAcc k now seen acc →
      EvictAcc k now (seen ++ l) (l.foldl (evictStep k now) acc) := by
  intro l
  induction l with
  | nil =>
    intro seen acc _ _ hacc
    simpa using hacc
  | cons n l' ih =>
    intro seen acc hwf hpw hacc
    have hstep : EvictAcc k now (seen ++ [n]) (evictStep k now acc n) := by
      refine evictAcc_step k now hk hnow seen n acc ?_ ?_ ?_ hacc
      · exact hwf n (by simp)
      · intro m hm; exact hwf m (by simp [hm])
      · intro m hm
        have := (List.pairwise_append.mp hpw).2.2 m hm n (by simp)
        exact this
    have heq : (seen ++ [n]) ++ l' = seen ++ n :: l' := by simp
    have := ih (seen ++ [n]) (evictStep k now acc n)
      (by rw [heq]; exact hwf) (by rw [heq]; exact hpw) hstep
    rw [heq] at this
    simpa using this

/-- C3: `Evict` fails exactly when no frame is evictable; otherwise it
returns the evictable frame with the largest backward K-distance, where a
frame with fewer than K recorded accesses has distance +infinity and any
other frame has distance `current_timestamp` minus the timestamp of its
K-th most recent access, and ties among +infinity frames are broken in
favor of the frame whose oldest recorded access timestamp is earliest.
The hypotheses are the reachable-state invariants: K is positive, the clock
below `size_t` max, every node has a non-empty history of timestamps below
the clock and a non-negative frame id, timestamps are pairwise distinct
across nodes, and `curr_size_` counts the evictable nodes. -/
theorem lruk_evict_policy (r : LRUKReplacer)
    (hk : 0 < r.k)
    (hnow : r.currentTimestamp < sizeTMax)
    (hwf : ∀ n ∈ r.nodes, NodeWF r.currentTimestamp n)
    (hdisj : List.Pairwise HistDisjoint r.nodes)
    (hinv : r.currSize = (r.nodes.filter fun n => n.isEvictable).length) :
    (evict r = none ↔ ∀ n ∈ r.nodes, n.isEvictable = false) ∧
      ∀ f r', evict r = some (f, r') →
        ∃ n ∈ r.nodes, n.fid = f ∧ n.isEvictable = true ∧
          ∀ m ∈ r.nodes, m.isEvictable = true → m.fid ≠ n.fid →
            EvictsBefore r.k r.currentTimestamp n m := by
  have hfold : EvictAcc r.k r.currentTimestamp r.nodes
      (r.nodes.foldl (evictStep r.k r.currentTimestamp) (-1, 0, sizeTMax)) := by
    have := evictAcc_fold r.k r.currentTimestamp hk hnow r.nodes [] (-1, 0, sizeTMax)
      (by simpa using hwf) (by simpa using hdisj)
      (Or.inl ⟨by simp, rfl⟩)
    simpa using this
  constructor
  · constructor
    · intro hnone
      by_cases hz : r.currSize = 0
      · intro n hn
        have : (r.nodes.filter fun n => n.isEvictable).length = 0 := by omega
        have hfe : r.nodes.filter (fun n => n.isEvictable) = [] :=
          List.length_eq_zero.mp this
        rcases Bool.eq_false_or_eq_true n.isEvictable with h | h
        · exact absurd (List.mem_filter.mpr ⟨hn, h⟩) (by simp [hfe])
        · exact h
      · exfalso
        rcases hfold with ⟨hall, haccv⟩ | ⟨b, hb, hbev, hbid, _, _⟩
        · have : r.nodes.filter (fun n => n.isEvictable) = [] := by
            apply List.filter_eq_nil_iff.mpr
            intro n hn
            simp [hall n hn]
          rw [this] at hinv
          exact hz (by simpa using hinv)
        · have hne : (r.nodes.foldl (evictStep r.k r.currentTimestamp)
              (-1, 0, sizeTMax)).1 ≠ -1 := by
            rw [hbid]
            have := (hwf b hb).2.2
            omega
          unfold evict at hnone
          rw [if_neg hz] at hnone
          simp only [ne_eq, hne, not_false_eq_true, if_true] at hnone
          exact absurd hnone (by simp)
    · intro hall
      have : r.nodes.filter (fun n => n.isEvictable) = [] := by
        apply List.filter_eq_nil_iff.mpr
        intro n hn
        simp [hall n hn]
      unfold evict
      rw [if_pos (by rw [hinv, this]; rfl)]
  · intro f r' hsome
    unfold evict at hsome
    by_cases hz : r.currSize = 0
    · rw [if_pos hz] at hsome
      exact absurd hsome (by simp)
    · rw [if_neg hz] at hsome
      rcases hfold with ⟨hall, haccv⟩ | ⟨b, hb, hbev, hbid, _, hbbest⟩
      · rw [haccv] at hsome
        simp at hsome
      · have hne : (r.nodes.foldl (evictStep r.k r.currentTimestamp)
            (-1, 0, sizeTMax)).1 ≠ -1 := by
          rw [hbid]
          have := (hwf b hb).2.2
          omega
        simp only [ne_eq, hne, not_false_eq_true, if_true,
          Option.some.injEq] at hsome
        refine ⟨b, hb, ?_, hbev, ?_⟩
        · rw [← hbid]
          exact congrArg Prod.fst hsome
        · intro m hm hmev hmfid
          refine hbbest m hm hmev ?_
          intro hmb
          exact hmfid (hmb ▸ rfl)

instance (now : Nat) (n : LRUKNode) : Decidable (NodeWF now n) := by
  unfold NodeWF
  infer_instance

instance (m n : LRUKNode) : Decidable (HistDisjoint m n) := by
  unfold HistDisjoint
  infer_instance

/-- A concrete replacer state for the C3 witness (K = 2, clock at 6): frame
0 has two recorded accesses, frame 1 only one (infinite distance), frame 2
is not evictable. -/
def lrukExample : LRUKReplacer :=
  { nodes := [{ history := [5, 1], fid := 0, isEvictable := true },
              { history := [3], fid := 1, isEvictable := true },
              { history := [4, 2], fid := 2, isEvictable := false }],
    currSize := 2, currentTimestamp := 6, k := 2, replacerSize := 3 }

/-- Witness for C3: the policy theorem applied at `lrukExample`, all
invariant hypotheses discharged by computation. -/
theorem lruk_evict_policy_witness :
    ((0 : Nat) < lrukExample.k ∧ lrukExample.currentTimestamp < sizeTMax) ∧
      ((evict lrukExample = none ↔
          ∀ n ∈ lrukExample.nodes, n.isEvictable = false) ∧
        ∀ f r', evict lrukExample = some (f, r') →
          ∃ n ∈ lrukExample.nodes, n.fid = f ∧ n.isEvictable = true ∧
            ∀ m ∈ lrukExample.nodes, m.isEvictable = true → m.fid ≠ n.fid →
              EvictsBefore lrukExample.k lrukExample.currentTimestamp n m) :=
  ⟨⟨by decide, by decide⟩,
    lruk_evict_policy lrukExample (by decide) (by decide) (by decide)
      (by decide) (by decide)⟩

/-! ## Buffer pool manager: DeletePage (src/buffer/buffer_pool_manager.cpp)

Only the state `DeletePage` touches is modelled: the frame metadata array,
the page table, the free list and the replacer.  `ResetMemory` clears the
frame's byte buffer, which carries no information in this model. -/

structure Frame where
  pageId : Int
  pinCount : Nat
  isDirty : Bool
  deriving Repr, DecidableEq

/-- The reset frame metadata `DeletePage` leaves behind. -/
def resetFrame : Frame := { pageId := INVALID, pinCount := 0, isDirty := false }

structure BufferPoolManager where
  poolSize : Nat
  frames : List Frame
  pageTable : List (Int × Nat)
  freeList : List Nat
  replacer : LRUKReplacer
  nextPageId : Int
  deriving Repr, DecidableEq

/-- `BufferPoolManager::DeletePage`: absent page ids return true at once;
a pinned page returns false; otherwise the frame is cleared and returned to
the free list, the replacer node removed (its assert modelled as `none`),
and the page-table entry erased.  `DeallocatePage` is a no-op. -/
def deletePage (bpm : BufferPoolManager) (pid : Int) :
    Option (Bool × BufferPoolManager) :=
  match bpm.pageTable.lookup pid with
  | none => some (true, bpm)
  | some fid =>
    if (bpm.frames.getD fid resetFrame).pinCount > 0 then some (false, bpm)
    else
      match replacerRemove bpm.replacer (fid : Int) with
      | none => none
      | some rep =>
        some (true,
          { bpm with
            frames := bpm.frames.set fid resetFrame,
            freeList := bpm.freeList ++ [fid],
            replacer := rep,
            pageTable := bpm.pageTable.filter (fun e => !(e.1 == pid)) })

/-- An empty pool: nothing resident, both frames free. -/
def bpmEmpty : BufferPoolManager :=
  { poolSize := 2,
    frames := [resetFrame, resetFrame],
    pageTable := [],
    freeList := [0, 1],
    replacer := { nodes := [], currSize := 0, currentTimestamp := 0, k := 2,
                  replacerSize := 2 },
    nextPageId := 0 }

/-- C4 counterexample: for a page id absent from the page table the claim
demands `false`, but `DeletePage` returns `true` (the early
`return true` when the page-table lookup fails). -/
theorem deletePage_unknown_returns_true :
    bpmEmpty.pageTable.lookup 7 = none ∧
      deletePage bpmEmpty 7 = some (true, bpmEmpty) ∧
      ¬(deletePage bpmEmpty 7).map Prod.fst = some false := by
  refine ⟨rfl, rfl, ?_⟩
  intro h
  simp [deletePage, bpmEmpty] at h

theorem mem_of_lookup_eq_some (pid : Int) (fid : Nat) :
    ∀ l : List (Int × Nat), l.lookup pid = some fid → (pid, fid) ∈ l := by
  intro l
  induction l with
  | nil => intro h; cases h
  | cons e es ih =>
    intro h
    obtain ⟨a, b⟩ := e
    simp only [List.lookup] at h
    cases hba : (pid == a) with
    | false =>
      rw [hba] at h
      exact List.mem_cons_of_mem _ (ih h)
    | true =>
      rw [hba] at h
      have hpa : pid = a := by simpa using hba
      injection h with hb
      subst hpa hb
      exact List.mem_cons_self _ _

theorem lookup_filter_out_beq (pid : Int) :
    ∀ l : List (Int × Nat),
      (l.filter fun e => !(e.1 == pid)).lookup pid = none := by
  intro l
  induction l with
  | nil => rfl
  | cons e es ih =>
    obtain ⟨a, b⟩ := e
    rw [List.filter_cons]
    by_cases h : a = pid
    · rw [if_neg (by simp [h])]
      exact ih
    · rw [if_pos (by simp [h])]
      simp only [List.lookup]
      rw [show (pid == a) = false from
        beq_eq_false_iff_ne.mpr fun he => h he.symm]
      exact ih

/-- C4 (amended): `delete_page` returns true on success (the page was
resident and unpinned: the frame is cleared and the page-table entry
removed), returns false when the page is resident with a positive pin
count, and returns true — a successful no-op — when the page id is not in
the page table at all.  The hypotheses are reachable-state invariants: every
mapped frame id is a valid replacer frame, and an unpinned mapped frame's
replacer node, if any, is evictable. -/
theorem deletePage_spec (bpm : BufferPoolManager) (pid : Int)
    (hrange : ∀ e ∈ bpm.pageTable, 0 ≤ (e.2 : Int) ∧
      (e.2 : Int) < (bpm.replacer.replacerSize : Int))
    (hevict : ∀ e ∈ bpm.pageTable,
      (bpm.frames.getD e.2 resetFrame).pinCount = 0 →
      ∀ n ∈ bpm.replacer.nodes, n.fid = (e.2 : Int) → n.isEvictable = true) :
    (bpm.pageTable.lookup pid = none →
        deletePage bpm pid = some (true, bpm)) ∧
      ∀ fid, bpm.pageTable.lookup pid = some fid →
        ((bpm.frames.getD fid resetFrame).pinCount > 0 →
            deletePage bpm pid = some (false, bpm)) ∧
        ((bpm.frames.getD fid resetFrame).pinCount = 0 →
            ∃ bpm', deletePage bpm pid = some (true, bpm') ∧
              bpm'.pageTable.lookup pid = none) := by
  constructor
  · intro hnone
    unfold deletePage
    rw [hnone]
  · intro fid hsome
    have hmem : (pid, fid) ∈ bpm.pageTable :=
      mem_of_lookup_eq_some pid fid bpm.pageTable hsome
    constructor
    · intro hpin
      unfold deletePage
      rw [hsome]
      simp only [if_pos hpin]
    · intro hpin
      have hrem : ∃ rep, replacerRemove bpm.replacer (fid : Int) = some rep := by
        unfold replacerRemove
        rw [if_pos (hrange (pid, fid) hmem)]
        rcases hfind : bpm.replacer.nodes.find? fun n => n.fid == (fid : Int) with
          _ | n
        · rw [hfind]
          exact ⟨_, rfl⟩
        · rw [hfind]
          have hn : n ∈ bpm.replacer.nodes := List.mem_of_find?_eq_some hfind
          have hfid : n.fid = (fid : Int) := by
            have := List.find?_some hfind
            simpa using this
          have he := hevict (pid, fid) hmem hpin n hn hfid
          simp only [he, if_true]
          exact ⟨_, rfl⟩
      rcases hrem with ⟨rep, hrep⟩
      refine ⟨{ bpm with
          frames := bpm.frames.set fid resetFrame,
          freeList := bpm.freeList ++ [fid],
          replacer := rep,
          pageTable := bpm.pageTable.filter (fun e => !(e.1 == pid)) }, ?_, ?_⟩
      · unfold deletePage
        rw [hsome]
        simp only [List.getD_eq_getElem?_getD] at hpin
        simp [hpin, hrep]
      · exact lookup_filter_out_beq pid bpm.pageTable

/-- A pool with page 5 resident in frame 0, unpinned and evictable. -/
def bpmOnePage : BufferPoolManager :=
  { poolSize := 2,
    frames := [{ pageId := 5, pinCount := 0, isDirty := false }, resetFrame],
    pageTable := [(5, 0)],
    freeList := [1],
    replacer := { nodes := [{ history := [0], fid := 0, isEvictable := true }],
                  currSize := 1, currentTimestamp := 1, k := 2,
                  replacerSize := 2 },
    nextPageId := 6 }

/-- Witness for the amended C4 theorem at `bpmOnePage`. -/
theorem deletePage_spec_witness :
    ((bpmOnePage.pageTable.lookup 5 = none →
        deletePage bpmOnePage 5 = some (true, bpmOnePage)) ∧
      ∀ fid, bpmOnePage.pageTable.lookup 5 = some fid →
        ((bpmOnePage.frames.getD fid resetFrame).pinCount > 0 →
            deletePage bpmOnePage 5 = some (false, bpmOnePage)) ∧
        ((bpmOnePage.frames.getD fid resetFrame).pinCount = 0 →
            ∃ bpm', deletePage bpmOnePage 5 = some (true, bpm') ∧
              bpm'.pageTable.lookup 5 = none)) :=
  deletePage_spec bpmOnePage 5 (by decide) (by decide)

/-! ## B+ tree (src/storage/index/b_plus_tree.cpp)

The tree lives in buffer-pool pages addressed by page id.  The header page
(`header_page_id_`, fixed at 0 here) stores only `root_page_id`, modelled as
a field of the tree state.  New pages are numbered by the pool's monotonic
allocator starting at 1.  Leaf-page accessors are modelled from the spec's
leaf layout (`b_plus_tree_leaf_page.cpp` is not under the provided
sources); internal pages use the accessors above. -/

/-- The page id of the tree's header page. -/
def headerPageId : Int := 0

/-- Modelled from the spec: a leaf page — a slotted array of (key, record
id) pairs plus the `next_page_id` sibling pointer
(`b_plus_tree_leaf_page.cpp` is not under the provided sources).  The
backing arrays have capacity `max_size + 1`. -/
structure LeafPage where
  size : Nat
  maxSize : Nat
  keys : List Nat
  vals : List Nat
  nextPageId : Int
  deriving Repr, DecidableEq

namespace LeafPage

/-- `Init(max_size)`: empty leaf, no sibling. -/
def init (maxSize : Nat) : LeafPage :=
  { size := 0, maxSize := maxSize,
    keys := List.replicate (maxSize + 1) 0,
    vals := List.replicate (maxSize + 1) 0,
    nextPageId := INVALID }

/-- `KeyAt(index)` (unchecked slotted read). -/
def keyAt (l : LeafPage) (i : Int) : Nat := l.keys.getD i.toNat 0

/-- `ValueAt(index)` (unchecked slotted read). -/
def valAt (l : LeafPage) (i : Int) : Nat := l.vals.getD i.toNat 0

/-- `SetAt(index, key, value)` (unchecked slotted write). -/
def setAt (l : LeafPage) (i : Int) (k v : Nat) : LeafPage :=
  { l with keys := l.keys.set i.toNat k, vals := l.vals.set i.toNat v }

/-- `IncreaseSize(amount)`. -/
def increaseSize (l : LeafPage) (amount : Int) : LeafPage :=
  { l with size := ((l.size : Int) + amount).toNat }

/-- `SetSize(size)`. -/
def setSize (l : LeafPage) (n : Nat) : LeafPage := { l with size := n }

/-- Modelled from the spec: `GetMinSize()` for leaves is
`ceil((max_size - 1) / 2)` (`b_plus_tree_page.cpp` is not under the
provided sources). -/
def minSize (l : LeafPage) : Nat := l.maxSize / 2

/-- The visible entries of a leaf: the first `size` (key, value) slots. -/
def entries (l : LeafPage) : List (Nat × Nat) :=
  (l.keys.zip l.vals).take l.size

end LeafPage

/-- A B+ tree page is a leaf or an internal page (the header is kept in the
tree state). -/
inductive BPage
  | leaf (l : LeafPage)
  | inner (p : InternalPage)
  deriving Repr, DecidableEq

namespace BPage

/-- `IsLeafPage()`. -/
def isLeaf : BPage → Bool
  | .leaf _ => true
  | .inner _ => false

/-- `GetSize()` through the common page header. -/
def size : BPage → Nat
  | .leaf l => l.size
  | .inner p => p.size

/-- `GetMaxSize()` through the common page header. -/
def maxSize : BPage → Nat
  | .leaf l => l.maxSize
  | .inner p => p.maxSize

/-- Modelled from the spec: `GetMinSize()` — `ceil(max/2)` for internal
pages and `ceil((max-1)/2)` for leaves (`b_plus_tree_page.cpp` is not under
the provided sources). -/
def minSize : BPage → Nat
  | .leaf l => l.minSize
  | .inner p => p.minSize

def asLeaf : BPage → Option LeafPage
  | .leaf l => some l
  | .inner _ => none

def asInner : BPage → Option InternalPage
  | .leaf _ => none
  | .inner p => some p

end BPage

/-- The page store: an association list from page id to page. -/
abbrev PageStore := List (Int × BPage)

/-- Read a page from the store. -/
def getPage (s : PageStore) (pid : Int) : Option BPage := s.lookup pid

/-- Write a page: replace an existing entry or append a fresh one. -/
def putPage (s : PageStore) (pid : Int) (p : BPage) : PageStore :=
  if s.any fun e => e.1 == pid then
    s.map fun e => if e.1 == pid then (pid, p) else e
  else s ++ [(pid, p)]

/-- The whole tree state: the page store, the header page's
`root_page_id`, the pool's page-id allocator, and the two size
parameters. -/
structure BPlusTree where
  pages : PageStore
  rootPageId : Int
  nextPageId : Int
  leafMaxSize : Nat
  internalMaxSize : Nat
  deriving Repr, DecidableEq

/-- A freshly constructed tree: the constructor writes
`root_page_id = INVALID` into the header page. -/
def BPlusTree.new (leafMaxSize internalMaxSize : Nat) : BPlusTree :=
  { pages := [], rootPageId := INVALID, nextPageId := 1,
    leafMaxSize := leafMaxSize, internalMaxSize := internalMaxSize }

/-- The binary search of `BPlusTree::FindInternal` over slots
`1..size-1`: the greatest slot whose key is at most the search key, slot 0
for smaller keys, `-1` only when the page has no real key.  The loop is
given `ed - st + 1` iterations of fuel, which is what it needs. -/
def findInternalGo (p : InternalPage) (key : Nat) : Int → Int → Nat → Int
  | _, _, 0 => -1
  | st, ed, fuel + 1 =>
    if st ≤ ed then
      let mid := (st + ed) / 2
      if key < p.keyAt mid then
        if mid = st then st - 1
        else if p.keyAt (mid - 1) ≤ key then mid - 1
        else findInternalGo p key st (mid - 1) fuel
      else
        if mid = ed then ed
        else if key < p.keyAt (mid + 1) then mid
        else findInternalGo p key (mid + 1) ed fuel
    else -1

def findInternal (key : Nat) (p : InternalPage) : Int :=
  findInternalGo p key 1 ((p.size : Int) - 1) (p.size + 1)

/-- The binary search of `BPlusTree::FindLeaf`: the slot holding exactly
the key, or `-1`. -/
def findLeafGo (l : LeafPage) (key : Nat) : Int → Int → Nat → Int
  | _, _, 0 => -1
  | st, ed, fuel + 1 =>
    if st ≤ ed then
      let mid := (st + ed) / 2
      if key = l.keyAt mid then mid
      else if key > l.keyAt mid then findLeafGo l key (mid + 1) ed fuel
      else findLeafGo l key st (mid - 1) fuel
    else -1

def findLeaf (key : Nat) (l : LeafPage) : Int :=
  findLeafGo l key 0 ((l.size : Int) - 1) (l.size + 1)

/-- The read-crabbing descent of `BPlusTree::GetValue` below the root:
binary-search each internal page for the child and recurse, stopping on a
leaf.  Fuel bounds the depth; the operations instantiate it with more than
the store size. -/
def descendGo (s : PageStore) (key : Nat) : Int → Nat → Option Int
  | _, 0 => none
  | pid, fuel + 1 =>
    match getPage s pid with
    | some (.leaf _) => some pid
    | some (.inner p) =>
      let slot := findInternal key p
      if slot = -1 then none
      else descendGo s key (p.valueAt slot) fuel
    | none => none

/-- `BPlusTree::GetValue`: empty-tree check on the header, descent, then
leaf binary search.  (The source's mid-descent `slot == -1` early return
and a missing page both come out as `none`.) -/
def getValue (t : BPlusTree) (key : Nat) : Option Nat :=
  if t.rootPageId = INVALID then none
  else
    match descendGo t.pages key t.rootPageId (t.pages.length + 1) with
    | none => none
    | some leafPid =>
      match getPage t.pages leafPid with
      | some (.leaf l) =>
        let slot := findLeaf key l
        if slot ≠ -1 then some (l.valAt slot) else none
      | _ => none

/-! ### Insert (b_plus_tree.cpp lines 137-445) -/

/-- One iteration of the ordered-insert loop of `Insert` (shared by the
optimistic phase and pessimistic case 1): once the insertion point is
found, bubble the carried pair through the slots. -/
def leafBubbleStep (key : Nat) (st : LeafPage × (Nat × Nat) × Bool)
    (i : Nat) : LeafPage × (Nat × Nat) × Bool :=
  let l := st.1
  let ins := st.2.1
  let found := st.2.2 || decide (key < l.keyAt i)
  if found then
    (l.setAt i ins.1 ins.2, (l.keyAt i, l.valAt i), found)
  else (l, ins, found)

/-- Ordered insert into a leaf with room: bubble through the `size` slots,
grow by one, and place the carried pair in the last slot. -/
def leafSimpleInsert (l : LeafPage) (key v : Nat) : LeafPage :=
  let res := (List.range l.size).foldl (leafBubbleStep key) (l, (key, v), false)
  let l2 := res.1.increaseSize 1
  l2.setAt ((l2.size : Int) - 1) res.2.1.1 res.2.1.2

/-- One iteration of the leaf-split loop: slots left of `split_index` keep
bubbling in place, those at or right of it stream into the new right
leaf. -/
def leafSplitStep (key : Nat) (si : Nat)
    (st : LeafPage × LeafPage × (Nat × Nat) × Bool) (i : Nat) :
    LeafPage × LeafPage × (Nat × Nat) × Bool :=
  let left := st.1
  let right := st.2.1
  let ins := st.2.2.1
  let found := st.2.2.2 || decide (key < left.keyAt i)
  if found then
    if i < si then
      (left.setAt i ins.1 ins.2, right, (left.keyAt i, left.valAt i), found)
    else
      (left, right.setAt ((i : Int) - si) ins.1 ins.2,
        (left.keyAt i, left.valAt i), found)
  else
    if i ≥ si then
      (left, right.setAt ((i : Int) - si) (left.keyAt i) (left.valAt i),
        ins, found)
    else (left, right, ins, found)

/-- The leaf split of `Insert` case 2: the right leaf receives
`(max+1) - (max+1)/2` entries, the left keeps `(max+1)/2`, the sibling
pointers are relinked, and the separator is the first key of the new right
leaf.  Returns (left, right, split key). -/
def leafSplitInsert (leaf : LeafPage) (key v : Nat) (splitPid : Int) :
    LeafPage × LeafPage × Nat :=
  let right0 := (LeafPage.init leaf.maxSize).setSize
    ((leaf.maxSize + 1) - (leaf.maxSize + 1) / 2)
  let si := (leaf.maxSize + 1) / 2
  let res := (List.range leaf.maxSize).foldl (leafSplitStep key si)
    (leaf, right0, (key, v), false)
  let left := res.1
  let right := res.2.1
  let ins := res.2.2.1
  let right := right.setAt ((right.size : Int) - 1) ins.1 ins.2
  let right := { right with nextPageId := left.nextPageId }
  let left := { left with nextPageId := splitPid }
  let left := left.setSize ((leaf.maxSize + 1) / 2)
  (left, right, right.keyAt 0)

/-- One iteration of the internal-split loop (case 3): slots left of
`split_index` bubble in place, the slot at `split_index` donates the
promoted key and the orphaned child pointer to the new right node's slot 0,
later slots stream into the right node. -/
def innerSplitStep (splitKey : Nat) (si : Nat)
    (st : InternalPage × InternalPage × Nat × Int × Nat × Bool) (i : Nat) :
    InternalPage × InternalPage × Nat × Int × Nat × Bool :=
  let parent := st.1
  let nsplit := st.2.1
  let kins := st.2.2.1
  let pins := st.2.2.2.1
  let nsk := st.2.2.2.2.1
  let found := st.2.2.2.2.2 || decide (splitKey < parent.keyAt i)
  if found || decide (si ≤ i) then
    if i < si then
      ((parent.setKeyAt i kins).setValueAt i pins, nsplit,
        parent.keyAt i, parent.valueAt i, nsk, found)
    else if i = si then
      if found then
        (parent, nsplit.setValueAt 0 pins,
          parent.keyAt i, parent.valueAt i, kins, found)
      else
        (parent, nsplit.setValueAt 0 (parent.valueAt i),
          kins, pins, parent.keyAt i, found)
    else
      if found then
        (parent,
          (nsplit.setKeyAt ((i : Int) - si) kins).setValueAt ((i : Int) - si)
            pins,
          parent.keyAt i, parent.valueAt i, nsk, found)
      else
        (parent,
          (nsplit.setKeyAt ((i : Int) - si) (parent.keyAt i)).setValueAt
            ((i : Int) - si) (parent.valueAt i),
          kins, pins, nsk, found)
  else (parent, nsplit, kins, pins, nsk, found)

/-- One internal split of the cascade: run the loop over slots
`1..max-1`, shrink the left node to `max/2 + 1` slots, and place the last
carried pair at the end of the right node.  Returns (left, right, promoted
key). -/
def innerSplit (parent : InternalPage) (imax : Nat) (splitKey : Nat)
    (splitPid : Int) : InternalPage × InternalPage × Nat :=
  let nsplit0 := (InternalPage.init imax).setSize
    ((parent.maxSize + 1) - (parent.maxSize / 2 + 1))
  let si := parent.maxSize / 2 + 1
  let res := (List.range' 1 (parent.maxSize - 1)).foldl
    (innerSplitStep splitKey si)
    (parent, nsplit0, splitKey, splitPid, splitKey, false)
  let parent2 := res.1.setSize (parent.maxSize / 2 + 1)
  let nsplit := res.2.1
  let kins := res.2.2.1
  let pins := res.2.2.2.1
  let nsk := res.2.2.2.2.1
  let nsplit2 := (nsplit.setKeyAt ((nsplit.size : Int) - 1) kins).setValueAt
    ((nsplit.size : Int) - 1) pins
  (parent2, nsplit2, nsk)

/-- The case-3 cascade (`while (ctx.write_set_.size() > 1)`): keep
splitting the full ancestors from the bottom of the write set, threading
the promoted key / new right page upward.  The loop runs at most once per
write-set entry, which is the fuel the caller passes. -/
def insertCascade (imax : Nat) :
    Nat → List Int → PageStore → Int → Nat → Int → Int →
      Option (List Int × PageStore × Int × Nat × Int × Int)
  | 0, ws, s, np, sk, sp, origin =>
    if ws.length > 1 then none else some (ws, s, np, sk, sp, origin)
  | fuel + 1, ws, s, np, sk, sp, origin =>
    if ws.length > 1 then
      match ws.getLast? with
      | none => none
      | some parentPid =>
        match getPage s parentPid with
        | some (.inner parent) =>
          let r := innerSplit parent imax sk sp
          insertCascade imax fuel ws.dropLast
            (putPage (putPage s parentPid (.inner r.1)) np (.inner r.2.1))
            (np + 1) r.2.2 np parentPid
        | _ => none
    else some (ws, s, np, sk, sp, origin)

/-- The write-set-collecting pessimistic descent of `Insert` (phase 2):
walking down, a child with room (`size < max_size`, safe for insert)
clears the deferred set before being pushed. -/
def insertDescendGo (s : PageStore) (key : Nat) :
    List Int → Int → Nat → Option (List Int)
  | _, _, 0 => none
  | ws, pid, fuel + 1 =>
    match getPage s pid with
    | some (.leaf _) => some ws
    | some (.inner p) =>
      let child := p.valueAt (findInternal key p)
      match getPage s child with
      | none => none
      | some cp =>
        insertDescendGo s key
          (if cp.size < cp.maxSize then [child] else ws ++ [child]) child fuel
    | none => none

/-- The downward shift loop of case 3.1 (make room at `slot` in an
ancestor that is safe for insert). -/
def absorbShiftGo (slot : Int) : InternalPage → Int → Nat → InternalPage
  | p, _, 0 => p
  | p, i, fuel + 1 =>
    if i > slot then
      absorbShiftGo slot
        ((p.setKeyAt i (p.keyAt (i - 1))).setValueAt i (p.valueAt (i - 1)))
        (i - 1) fuel
    else p

def absorbShift (p : InternalPage) (slot : Int) : InternalPage :=
  absorbShiftGo slot p ((p.size : Int) - 1) (p.size + 1)

/-- Phase 2 of `Insert` — pessimistic crabbing: create the root for an
empty tree; otherwise descend with the write set, insert in place when the
leaf has room, else split the leaf, cascade splits upward, and either grow
a new root (returning true) or absorb the separator into the surviving
safe ancestor — where the source returns false (case 3.1). -/
def insertPessimistic (t : BPlusTree) (key v : Nat) :
    Option (Bool × BPlusTree) := do
  if t.rootPageId = INVALID then
    let rootPid := t.nextPageId
    let root := ((LeafPage.init t.leafMaxSize).increaseSize 1).setAt 0 key v
    return (true,
      { t with
          pages := putPage t.pages rootPid (.leaf root),
          rootPageId := rootPid,
          nextPageId := t.nextPageId + 1 })
  else
    let rootPg ← getPage t.pages t.rootPageId
    let ws0 := if rootPg.size < rootPg.maxSize then [t.rootPageId]
      else [headerPageId, t.rootPageId]
    let ws ← insertDescendGo t.pages key ws0 t.rootPageId
      (t.pages.length + 1)
    let leafPid ← ws.getLast?
    let ws1 := ws.dropLast
    let lp ← getPage t.pages leafPid
    let leaf ← lp.asLeaf
    if findLeaf key leaf ≠ -1 then
      return (false, t)
    else if leaf.size < leaf.maxSize then
      return (true, { t with
        pages := putPage t.pages leafPid (.leaf (leafSimpleInsert leaf key v)) })
    else
      let splitPid := t.nextPageId
      let r := leafSplitInsert leaf key v splitPid
      let s2 := putPage (putPage t.pages leafPid (.leaf r.1)) splitPid
        (.leaf r.2.1)
      let c ← insertCascade t.internalMaxSize ws1.length ws1 s2
        (t.nextPageId + 1) r.2.2 splitPid leafPid
      let ws2 := c.1
      let s3 := c.2.1
      let np3 := c.2.2.1
      let sk3 := c.2.2.2.1
      let sp3 := c.2.2.2.2.1
      let origin3 := c.2.2.2.2.2
      if ws2.head? = some headerPageId then
        let rootPid2 := np3
        let root :=
          ((((InternalPage.init t.internalMaxSize).increaseSize 1).setValueAt
            0 origin3).setKeyAt 1 sk3).setValueAt 1 sp3
        return (true,
          { t with
              pages := putPage s3 rootPid2 (.inner root),
              rootPageId := rootPid2,
              nextPageId := np3 + 1 })
      else
        let parentPid ← ws2.getLast?
        let pg ← getPage s3 parentPid
        let parent ← pg.asInner
        let slot := findInternal sk3 parent + 1
        let parent2 := absorbShift (parent.increaseSize 1) slot
        let parent3 := (parent2.setKeyAt slot sk3).setValueAt slot sp3
        return (false,
          { t with
              pages := putPage s3 parentPid (.inner parent3),
              nextPageId := np3 })

/-- `BPlusTree::Insert`.  Phase 1 (optimistic crabbing) descends with read
guards and write-locks only the leaf; its detection of the last internal
level goes through `KeyAt(0)`/`SetFromInter` in the project's modified
`generic_key.h`, which is not under the provided sources — the descent to
the leaf is modelled from the spec ("descend with read guards, and at the
leaf take a write guard").  A duplicate key returns false; a leaf with room
takes the insert; a full leaf falls through to phase 2. -/
def insert (t : BPlusTree) (key v : Nat) : Option (Bool × BPlusTree) := do
  if t.rootPageId ≠ INVALID then
    let leafPid ← descendGo t.pages key t.rootPageId (t.pages.length + 1)
    let lp ← getPage t.pages leafPid
    let leaf ← lp.asLeaf
    if findLeaf key leaf ≠ -1 then
      return (false, t)
    else if leaf.size < leaf.maxSize then
      return (true, { t with
        pages := putPage t.pages leafPid (.leaf (leafSimpleInsert leaf key v)) })
    else insertPessimistic t key v
  else insertPessimistic t key v

/-! ### Remove (b_plus_tree.cpp lines 458-804) -/

/-- The write-set-collecting pessimistic descent of `Remove`: a child that
cannot underflow (`size > min_size`, safe for delete) clears the deferred
set before being pushed. -/
def removeDescendGo (s : PageStore) (key : Nat) :
    List Int → Int → Nat → Option (List Int)
  | _, _, 0 => none
  | ws, pid, fuel + 1 =>
    match getPage s pid with
    | some (.leaf _) => some ws
    | some (.inner p) =>
      let child := p.valueAt (findInternal key p)
      match getPage s child with
      | none => none
      | some cp =>
        removeDescendGo s key
          (if cp.size > cp.minSize then [child] else ws ++ [child]) child fuel
    | none => none

/-- Delete the pair at `slot` from a leaf, shifting the successors left. -/
def leafDeleteAt (l : LeafPage) (slot : Int) : LeafPage :=
  ((List.range' slot.toNat (l.size - 1 - slot.toNat)).foldl
    (fun acc (i : Nat) => acc.setAt i (acc.keyAt ((i : Int) + 1))
      (acc.valAt ((i : Int) + 1))) l).increaseSize (-1)

/-- The left-shift loop `for i in [0, size-1) SetAt(i, K[i+1], V[i+1])`
followed by `IncreaseSize(-1)`, used on a leaf that donated its first
entry. -/
def leafShiftLeftAll (l : LeafPage) : LeafPage :=
  ((List.range (l.size - 1)).foldl
    (fun acc (i : Nat) => acc.setAt i (acc.keyAt ((i : Int) + 1))
      (acc.valAt ((i : Int) + 1))) l).increaseSize (-1)

/-- The right-shift loop `for i = size-1 downto 1, SetAt(i, K[i-1],
V[i-1])`, used on a leaf that receives an entry at the front. -/
def leafShiftRightGo : LeafPage → Int → Nat → LeafPage
  | l, _, 0 => l
  | l, i, fuel + 1 =>
    if i > 0 then
      leafShiftRightGo (l.setAt i (l.keyAt (i - 1)) (l.valAt (i - 1)))
        (i - 1) fuel
    else l

/-- Remove the parent entry at `start`, shifting later slots left
(`for i in [start, size-1)`) and shrinking by one. -/
def innerShiftLeftFrom (p : InternalPage) (start : Int) : InternalPage :=
  ((List.range' start.toNat (p.size - 1 - start.toNat)).foldl
    (fun acc (i : Nat) => (acc.setKeyAt i (acc.keyAt ((i : Int) + 1))).setValueAt i
      (acc.valueAt ((i : Int) + 1))) p).increaseSize (-1)

/-- The internal left-shift after donating slot 0's child: values shift
from slot 0, keys only from slot 1 (slot 0's key is unused). -/
def innerShiftLeftAll (p : InternalPage) : InternalPage :=
  ((List.range (p.size - 1)).foldl
    (fun acc (i : Nat) =>
      let acc1 := if i ≠ 0 then acc.setKeyAt i (acc.keyAt ((i : Int) + 1))
        else acc
      acc1.setValueAt i (acc1.valueAt ((i : Int) + 1))) p).increaseSize (-1)

/-- The internal right-shift `for i = size-1 downto 1`, writing the
parent's separator into slot 1, used when borrowing from a left sibling. -/
def innerShiftRightGo (pk : Nat) : InternalPage → Int → Nat → InternalPage
  | p, _, 0 => p
  | p, i, fuel + 1 =>
    if i ≥ 1 then
      let p1 := if i = 1 then p.setKeyAt 1 pk else p.setKeyAt i (p.keyAt (i - 1))
      innerShiftRightGo pk (p1.setValueAt i (p1.valueAt (i - 1))) (i - 1) fuel
    else p

/-- Leaf-level rebalance of `Remove` case 2: the three positional branches
(leftmost / rightmost / middle) with their duplicated borrow and merge
bodies.  Returns the updated store and `true` when the source returns
right away (a borrow), `false` when a merge happened and the cascade must
continue upward. -/
def leafRebalance (s : PageStore) (leafPid : Int) (leaf : LeafPage)
    (parentPid : Int) (parent : InternalPage) (psn : Int) :
    Option (PageStore × Bool) := do
  if psn = 0 then
    let rsibPid := parent.valueAt (psn + 1)
    let rp ← getPage s rsibPid
    let rsib ← rp.asLeaf
    if rsib.size > rsib.minSize then
      let leaf1 := leaf.increaseSize 1
      let leaf2 := leaf1.setAt ((leaf1.size : Int) - 1) (rsib.keyAt 0)
        (rsib.valAt 0)
      let parent1 := parent.setKeyAt (psn + 1) (rsib.keyAt 1)
      let rsib1 := leafShiftLeftAll rsib
      return (putPage (putPage (putPage s leafPid (.leaf leaf2)) parentPid
        (.inner parent1)) rsibPid (.leaf rsib1), true)
    else
      let leaf1 := leaf.increaseSize rsib.size
      let leaf2 := (List.range rsib.size).foldl
        (fun acc (j : Nat) => acc.setAt (Int.ofNat (leaf.size + j)) (rsib.keyAt j)
          (rsib.valAt j)) leaf1
      let leaf3 := { leaf2 with nextPageId := rsib.nextPageId }
      let parent1 := innerShiftLeftFrom parent (psn + 1)
      return (putPage (putPage s leafPid (.leaf leaf3)) parentPid
        (.inner parent1), false)
  else if psn = (parent.size : Int) - 1 then
    let lsibPid := parent.valueAt (psn - 1)
    let lp2 ← getPage s lsibPid
    let lsib ← lp2.asLeaf
    if lsib.size > lsib.minSize then
      let leaf1 := leaf.increaseSize 1
      let leaf2 := leafShiftRightGo leaf1 ((leaf1.size : Int) - 1)
        (leaf1.size + 1)
      let leaf3 := leaf2.setAt 0 (lsib.keyAt ((lsib.size : Int) - 1))
        (lsib.valAt ((lsib.size : Int) - 1))
      let parent1 := parent.setKeyAt psn (leaf3.keyAt 0)
      let lsib1 := lsib.increaseSize (-1)
      return (putPage (putPage (putPage s leafPid (.leaf leaf3)) parentPid
        (.inner parent1)) lsibPid (.leaf lsib1), true)
    else
      let lsib1 := lsib.increaseSize leaf.size
      let lsib2 := (List.range leaf.size).foldl
        (fun acc (j : Nat) => acc.setAt (Int.ofNat (lsib.size + j)) (leaf.keyAt j)
          (leaf.valAt j)) lsib1
      let lsib3 := { lsib2 with nextPageId := leaf.nextPageId }
      let parent1 := innerShiftLeftFrom parent psn
      return (putPage (putPage s lsibPid (.leaf lsib3)) parentPid
        (.inner parent1), false)
  else
    let rsibPid := parent.valueAt (psn + 1)
    let lsibPid := parent.valueAt (psn - 1)
    let rp ← getPage s rsibPid
    let rsib ← rp.asLeaf
    let lp2 ← getPage s lsibPid
    let lsib ← lp2.asLeaf
    if rsib.size > rsib.minSize then
      let leaf1 := leaf.increaseSize 1
      let leaf2 := leaf1.setAt ((leaf1.size : Int) - 1) (rsib.keyAt 0)
        (rsib.valAt 0)
      let parent1 := parent.setKeyAt (psn + 1) (rsib.keyAt 1)
      let rsib1 := leafShiftLeftAll rsib
      return (putPage (putPage (putPage s leafPid (.leaf leaf2)) parentPid
        (.inner parent1)) rsibPid (.leaf rsib1), true)
    else if lsib.size > lsib.minSize then
      let leaf1 := leaf.increaseSize 1
      let leaf2 := leafShiftRightGo leaf1 ((leaf1.size : Int) - 1)
        (leaf1.size + 1)
      let leaf3 := leaf2.setAt 0 (lsib.keyAt ((lsib.size : Int) - 1))
        (lsib.valAt ((lsib.size : Int) - 1))
      let parent1 := parent.setKeyAt psn (leaf3.keyAt 0)
      let lsib1 := lsib.increaseSize (-1)
      return (putPage (putPage (putPage s leafPid (.leaf leaf3)) parentPid
        (.inner parent1)) lsibPid (.leaf lsib1), true)
    else
      let leaf1 := leaf.increaseSize rsib.size
      let leaf2 := (List.range rsib.size).foldl
        (fun acc (j : Nat) => acc.setAt (Int.ofNat (leaf.size + j)) (rsib.keyAt j)
          (rsib.valAt j)) leaf1
      let leaf3 := { leaf2 with nextPageId := rsib.nextPageId }
      let parent1 := innerShiftLeftFrom parent (psn + 1)
      return (putPage (putPage s leafPid (.leaf leaf3)) parentPid
        (.inner parent1), false)

/-- Internal-level rebalance (one iteration body of `Remove` case 3), same
three positional branches.  Returns the updated store and `true` when the
source returns right away (a borrow). -/
def innerRebalance (s : PageStore) (curPid : Int) (cur : InternalPage)
    (parentPid : Int) (parent : InternalPage) (psn : Int) :
    Option (PageStore × Bool) := do
  if psn = 0 then
    let rsibPid := parent.valueAt (psn + 1)
    let rp ← getPage s rsibPid
    let rsib ← rp.asInner
    if rsib.size > rsib.minSize then
      let cur1 := cur.increaseSize 1
      let cur2 := cur1.setKeyAt ((cur1.size : Int) - 1)
        (parent.keyAt (psn + 1))
      let cur3 := cur2.setValueAt ((cur1.size : Int) - 1) (rsib.valueAt 0)
      let parent1 := parent.setKeyAt (psn + 1) (rsib.keyAt 1)
      let rsib1 := innerShiftLeftAll rsib
      return (putPage (putPage (putPage s curPid (.inner cur3)) parentPid
        (.inner parent1)) rsibPid (.inner rsib1), true)
    else
      let cur1 := cur.increaseSize rsib.size
      let cur2 := (List.range rsib.size).foldl
        (fun acc (j : Nat) =>
          let k := if j = 0 then parent.keyAt (psn + 1) else rsib.keyAt j
          (acc.setKeyAt (Int.ofNat (cur.size + j)) k).setValueAt
            (Int.ofNat (cur.size + j)) (rsib.valueAt j)) cur1
      let parent1 := innerShiftLeftFrom parent (psn + 1)
      return (putPage (putPage s curPid (.inner cur2)) parentPid
        (.inner parent1), false)
  else if psn = (parent.size : Int) - 1 then
    let lsibPid := parent.valueAt (psn - 1)
    let lp2 ← getPage s lsibPid
    let lsib ← lp2.asInner
    if lsib.size > lsib.minSize then
      let cur1 := cur.increaseSize 1
      let cur2 := innerShiftRightGo (parent.keyAt psn) cur1
        ((cur1.size : Int) - 1) (cur1.size + 1)
      let cur3 := cur2.setValueAt 0 (lsib.valueAt ((lsib.size : Int) - 1))
      let parent1 := parent.setKeyAt psn (lsib.keyAt ((lsib.size : Int) - 1))
      let lsib1 := lsib.increaseSize (-1)
      return (putPage (putPage (putPage s curPid (.inner cur3)) parentPid
        (.inner parent1)) lsibPid (.inner lsib1), true)
    else
      let lsib1 := lsib.increaseSize cur.size
      let lsib2 := (List.range cur.size).foldl
        (fun acc (j : Nat) =>
          let k := if j = 0 then parent.keyAt psn else cur.keyAt j
          (acc.setKeyAt (Int.ofNat (lsib.size + j)) k).setValueAt
            (Int.ofNat (lsib.size + j)) (cur.valueAt j)) lsib1
      let parent1 := innerShiftLeftFrom parent psn
      return (putPage (putPage s lsibPid (.inner lsib2)) parentPid
        (.inner parent1), false)
  else
    let rsibPid := parent.valueAt (psn + 1)
    let lsibPid := parent.valueAt (psn - 1)
    let rp ← getPage s rsibPid
    let rsib ← rp.asInner
    let lp2 ← getPage s lsibPid
    let lsib ← lp2.asInner
    if rsib.size > rsib.minSize then
      let cur1 := cur.increaseSize 1
      let cur2 := cur1.setKeyAt ((cur1.size : Int) - 1)
        (parent.keyAt (psn + 1))
      let cur3 := cur2.setValueAt ((cur1.size : Int) - 1) (rsib.valueAt 0)
      let parent1 := parent.setKeyAt (psn + 1) (rsib.keyAt 1)
      let rsib1 := innerShiftLeftAll rsib
      return (putPage (putPage (putPage s curPid (.inner cur3)) parentPid
        (.inner parent1)) rsibPid (.inner rsib1), true)
    else if lsib.size > lsib.minSize then
      let cur1 := cur.increaseSize 1
      let cur2 := innerShiftRightGo (parent.keyAt psn) cur1
        ((cur1.size : Int) - 1) (cur1.size + 1)
      let cur3 := cur2.setValueAt 0 (lsib.valueAt ((lsib.size : Int) - 1))
      let parent1 := parent.setKeyAt psn (lsib.keyAt ((lsib.size : Int) - 1))
      let lsib1 := lsib.increaseSize (-1)
      return (putPage (putPage (putPage s curPid (.inner cur3)) parentPid
        (.inner parent1)) lsibPid (.inner lsib1), true)
    else
      let cur1 := cur.increaseSize rsib.size
      let cur2 := (List.range rsib.size).foldl
        (fun acc (j : Nat) =>
          let k := if j = 0 then parent.keyAt (psn + 1) else rsib.keyAt j
          (acc.setKeyAt (Int.ofNat (cur.size + j)) k).setValueAt
            (Int.ofNat (cur.size + j)) (rsib.valueAt j)) cur1
      let parent1 := innerShiftLeftFrom parent (psn + 1)
      return (putPage (putPage s curPid (.inner cur2)) parentPid
        (.inner parent1), false)

/-- The upward cascade of `Remove` case 3 (`while (ctx.write_set_.size() >
1)`).  When the next guard above is the header the collapsed root's sole
child is promoted; a borrow ends the walk; a merge continues with the
parent pushed back.  Returns the store and the (possibly updated)
`root_page_id`. -/
def removeUpwardGo (rootId : Int) :
    PageStore → List Int → Nat → Nat → Option (PageStore × Int)
  | s, ws, _, 0 => if ws.length > 1 then none else some (s, rootId)
  | s, ws, keyLoc, fuel + 1 =>
    if ws.length > 1 then do
      let curPid ← ws.getLast?
      let ws1 := ws.dropLast
      let parentPid ← ws1.getLast?
      let ws2 := ws1.dropLast
      let curPg ← getPage s curPid
      let cur ← curPg.asInner
      if parentPid = headerPageId then
        return (s, cur.valueAt 0)
      else
        let parentPg ← getPage s parentPid
        let parent ← parentPg.asInner
        let keyLoc1 := if cur.size = 1 then keyLoc else cur.keyAt 1
        let psn := findInternal keyLoc1 parent
        let keyLoc2 := parent.keyAt 1
        let rb ← innerRebalance s curPid cur parentPid parent psn
        if rb.2 then
          return (rb.1, rootId)
        else removeUpwardGo rootId rb.1 (ws2 ++ [parentPid]) keyLoc2 fuel
    else some (s, rootId)

/-- `BPlusTree::Remove`: empty-tree early return, pessimistic descent with the
delete-safety rule (root safe iff a leaf with two entries or an internal
with three), deletion in the leaf, early return when the key is absent,
root special cases, then sibling borrow / merge with the upward cascade. -/
def remove (t : BPlusTree) (key : Nat) : Option BPlusTree := do
  if t.rootPageId = INVALID then
    return t
  else
    let rootSaved := t.rootPageId
    let rootPg ← getPage t.pages t.rootPageId
    let ws0 := if (rootPg.isLeaf && decide (rootPg.size ≥ 2)) ||
        decide (rootPg.size ≥ 3) then [t.rootPageId]
      else [headerPageId, t.rootPageId]
    let ws ← removeDescendGo t.pages key ws0 t.rootPageId
      (t.pages.length + 1)
    let leafPid ← ws.getLast?
    let ws1 := ws.dropLast
    let lp ← getPage t.pages leafPid
    let leaf ← lp.asLeaf
    let slot := findLeaf key leaf
    if slot = -1 then
      return t
    else
      let keyLoc := leaf.keyAt 0
      let leaf1 := leafDeleteAt leaf slot
      if leaf1.size ≥ leaf1.minSize ∨ leafPid = rootSaved then
        if leafPid = rootSaved ∧ leaf1.size = 0 then
          -- the write set's front guard is the header page here
          return { t with pages := putPage t.pages leafPid (.leaf leaf1),
                          rootPageId := INVALID }
        else
          return { t with pages := putPage t.pages leafPid (.leaf leaf1) }
      else
        let parentPid ← ws1.getLast?
        let ws2 := ws1.dropLast
        let pg ← getPage t.pages parentPid
        let parent ← pg.asInner
        let psn := findInternal key parent
        let s1 := putPage t.pages leafPid (.leaf leaf1)
        let rb ← leafRebalance s1 leafPid leaf1 parentPid parent psn
        if rb.2 then
          return { t with pages := rb.1 }
        else
          let up ← removeUpwardGo t.rootPageId rb.1 (ws2 ++ [parentPid])
            keyLoc (ws2.length + 2)
          return { t with pages := up.1, rootPageId := up.2 }

/-! ### Forward iterator (src/storage/index/index_iterator.cpp and
`BPlusTree::Begin` / `End`) -/

/-- The index iterator: current leaf page id, slot index, and the cached
(key, value) item. -/
structure IndexIterator where
  cur : Int
  index : Int
  item : Nat × Nat
  deriving Repr, DecidableEq

/-- The `IndexIterator` constructor: for a valid page, cache the item at
`index`. -/
def iterMake (s : PageStore) (cur : Int) (index : Int) :
    Option IndexIterator :=
  if cur ≠ INVALID then do
    let pg ← getPage s cur
    let l ← pg.asLeaf
    return { cur := cur, index := index, item := (l.keyAt index, l.valAt index) }
  else some { cur := cur, index := index, item := (0, 0) }

/-- `IndexIterator::operator++`: advance the slot; at the end of the leaf
follow `next_page_id`, or become the end iterator. -/
def iterNext (s : PageStore) (it : IndexIterator) : Option IndexIterator := do
  let index1 := it.index + 1
  let pg ← getPage s it.cur
  let l ← pg.asLeaf
  if index1 < (l.size : Int) then
    return { cur := it.cur, index := index1,
             item := (l.keyAt index1, l.valAt index1) }
  else if l.nextPageId ≠ INVALID then do
    let pg2 ← getPage s l.nextPageId
    let l2 ← pg2.asLeaf
    return { cur := l.nextPageId, index := 0,
             item := (l2.keyAt 0, l2.valAt 0) }
  else
    return { cur := INVALID, index := -1, item := (0, 0) }

/-- The leftmost descent of `BPlusTree::Begin()`. -/
def leftmostGo (s : PageStore) : Int → Nat → Option Int
  | _, 0 => none
  | pid, fuel + 1 =>
    match getPage s pid with
    | some (.leaf _) => some pid
    | some (.inner p) => leftmostGo s (p.valueAt 0) fuel
    | none => none

/-- `BPlusTree::Begin()`: the end iterator for an empty tree, otherwise an
iterator at slot 0 of the leftmost leaf. -/
def beginIter (t : BPlusTree) : Option IndexIterator :=
  if t.rootPageId = INVALID then iterMake t.pages INVALID (-1)
  else do
    let pid ← leftmostGo t.pages t.rootPageId (t.pages.length + 1)
    iterMake t.pages pid 0

/-- Drain the iterator: collect `operator*` items until `IsEnd()`
(`cur_ == INVALID_PAGE_ID`), stepping with `operator++`. -/
def iterCollect (s : PageStore) : IndexIterator → Nat → Option (List (Nat × Nat))
  | it, 0 => if it.cur = INVALID then some [] else none
  | it, fuel + 1 =>
    if it.cur = INVALID then some []
    else do
      let it2 ← iterNext s it
      let rest ← iterCollect s it2 fuel
      return it.item :: rest

/-- The full scan `for (auto it = tree.Begin(); !it.IsEnd(); ++it)`. -/
def iteration (t : BPlusTree) : Option (List (Nat × Nat)) := do
  let it ← beginIter t
  iterCollect t.pages it
    ((t.pages.map fun e => e.2.size).sum + t.pages.length + 1)

/-- Chain several inserts, collecting the returned booleans. -/
def insertChain (t : BPlusTree) : List (Nat × Nat) → Option (List Bool × BPlusTree)
  | [] => some ([], t)
  | (k, v) :: rest => do
    let r ← insert t k v
    let rr ← insertChain r.2 rest
    return (r.1 :: rr.1, rr.2)

/-- Keys 1..5 inserted in ascending order into an empty tree with
`leaf_max_size = internal_max_size = 3` (boundary scenario 3 of the
spec). -/
def c2Run : Option (List Bool × BPlusTree) :=
  insertChain (BPlusTree.new 3 3)
    [(1, 101), (2, 102), (3, 103), (4, 104), (5, 105)]

/-- C2 counterexample: after inserting 1..5 the root is an internal page
with 2 children and single separator key 3 — not the claimed shape of
three leaves under separators [3, 5].  (This implementation splits a leaf
only when it is already full before the insert, so the third leaf never
materialises.) -/
theorem c2_claimed_shape_refuted :
    (c2Run.map fun r => r.1) = some [true, true, true, true, true] ∧
      (c2Run.map fun r =>
        ((getPage r.2.pages r.2.rootPageId).bind BPage.asInner).map
          fun q => (q.size, q.keyAt 1, q.keyAt 2)) =
        some (some (2, 3, 0)) ∧
      ¬(c2Run.map fun r =>
        ((getPage r.2.pages r.2.rootPageId).bind BPage.asInner).map
          fun q => (q.size, q.keyAt 1, q.keyAt 2)) =
        some (some (3, 3, 5)) := by
  refine ⟨by decide, by decide, ?_⟩
  intro h
  rw [show (c2Run.map fun r =>
      ((getPage r.2.pages r.2.rootPageId).bind BPage.asInner).map
        fun q => (q.size, q.keyAt 1, q.keyAt 2)) =
      some (some (2, 3, 0)) by decide] at h
  exact absurd h (by decide)

/-- C2 (amended): inserting 1..5 in order (all five returning true) yields
a root internal page (page 3) with two children and the single separator
key 3: leaf page 1 holds (1, 2) and leaf page 2 holds (3, 4, 5), linked
1 → 2; iterating from `Begin()` still yields the keys 1, 2, 3, 4, 5 in
order with their values. -/
theorem c2_actual_shape :
    (c2Run.map fun r => r.1) = some [true, true, true, true, true] ∧
      (c2Run.map fun r => r.2.rootPageId) = some 3 ∧
      (c2Run.map fun r =>
        ((getPage r.2.pages 3).bind BPage.asInner).map
          fun q => (List.range q.size).map
            fun i => (q.keyAt (Int.ofNat i), q.valueAt (Int.ofNat i))) =
        some (some [(0, 1), (3, 2)]) ∧
      (c2Run.map fun r =>
        ((getPage r.2.pages 1).bind BPage.asLeaf).map
          fun l => (l.entries.map Prod.fst, l.nextPageId)) =
        some (some ([1, 2], 2)) ∧
      (c2Run.map fun r =>
        ((getPage r.2.pages 2).bind BPage.asLeaf).map
          fun l => (l.entries.map Prod.fst, l.nextPageId)) =
        some (some ([3, 4, 5], INVALID)) ∧
      (c2Run.bind fun r => (iteration r.2).map (List.map Prod.fst)) =
        some [1, 2, 3, 4, 5] := by
  exact ⟨by decide, by decide, by decide, by decide, by decide, by decide⟩

/-- Keys 1..6 in ascending order, `leaf_max_size = internal_max_size = 3`:
the sixth insert splits the leaf (3,4,5) and pushes separator 5 into the
root, which has room. -/
def c1Run : Option (List Bool × BPlusTree) :=
  insertChain (BPlusTree.new 3 3)
    [(1, 101), (2, 102), (3, 103), (4, 104), (5, 105), (6, 106)]

/-- C1: inserting the fresh key 6 splits the leaf and pushes separator 5
into the root internal page, which has room (case 3.1); the insertion
happens — key 6 was absent before and is present with its value
afterwards, and the root now carries separators 3 and 5 — yet `Insert`
returns false, contradicting its own documented contract of returning true
for every non-duplicate insert (the `return false` at the end of case 3.1,
b_plus_tree.cpp line 444). -/
theorem c1_absorbed_split_returns_false :
    (c2Run.bind fun r => getValue r.2 6) = none ∧
      (c1Run.map fun r => r.1) =
        some [true, true, true, true, true, false] ∧
      (c1Run.bind fun r => getValue r.2 6) = some 106 ∧
      (c1Run.map fun r =>
        ((getPage r.2.pages r.2.rootPageId).bind BPage.asInner).map
          fun q => (q.size, q.keyAt 1, q.keyAt 2)) =
        some (some (3, 3, 5)) := by
  exact ⟨by decide, by decide, by decide, by decide⟩

/-! ### The visible keys of a well-formed tree, and C9 -/

/-- The keys stored in the leaves reachable from `pid`, left to right.
Returns `none` for structurally broken pages (an internal page with fewer
than two children, a leaf whose `size` exceeds its array capacity, a
dangling page id, or a depth beyond the fuel) — thus `some` asserts the
basic structural well-formedness of the subtree. -/
def treeKeysGo (s : PageStore) : Int → Nat → Option (List Nat)
  | _, 0 => none
  | pid, fuel + 1 =>
    match getPage s pid with
    | some (.leaf l) =>
      if l.size ≤ l.keys.length ∧ l.size ≤ l.vals.length then
        some (l.entries.map Prod.fst)
      else none
    | some (.inner p) =>
      if 2 ≤ p.size then
        (List.range p.size).foldl
          (fun acc (i : Nat) => acc.bind fun a =>
            (treeKeysGo s (p.valueAt (i : Int)) fuel).map fun ks => a ++ ks)
          (some [])
      else none
    | none => none

/-- The visible keys of the whole tree. -/
def treeKeys (t : BPlusTree) : Option (List Nat) :=
  if t.rootPageId = INVALID then some []
  else treeKeysGo t.pages t.rootPageId (t.pages.length + 1)

theorem collect_foldl_none {f : Nat → Option (List Nat)} :
    ∀ idxs : List Nat,
      idxs.foldl (fun acc i => acc.bind fun a => (f i).map fun k => a ++ k)
        none = none := by
  intro idxs
  induction idxs with
  | nil => rfl
  | cons i rest ih => rw [List.foldl_cons]; exact ih

theorem collect_foldl_some {f : Nat → Option (List Nat)} :
    ∀ (idxs : List Nat) (acc0 ks : List Nat),
      idxs.foldl (fun acc i => acc.bind fun a => (f i).map fun k => a ++ k)
        (some acc0) = some ks →
      (∀ x ∈ acc0, x ∈ ks) ∧
        ∀ i ∈ idxs, ∃ ksi, f i = some ksi ∧ ∀ x ∈ ksi, x ∈ ks := by
  intro idxs
  induction idxs with
  | nil =>
    intro acc0 ks h
    simp only [List.foldl_nil, Option.some.injEq] at h
    subst h
    exact ⟨fun x hx => hx, by simp⟩
  | cons i rest ih =>
    intro acc0 ks h
    rw [List.foldl_cons] at h
    rcases hfi : f i with _ | ksi
    · rw [hfi] at h
      have h2 : rest.foldl
          (fun acc i => acc.bind fun a => (f i).map fun k => a ++ k)
          none = some ks := h
      rw [collect_foldl_none] at h2
      cases h2
    · rw [hfi] at h
      simp only [Option.some_bind, Option.map_some] at h
      rcases ih (acc0 ++ ksi) ks h with ⟨hacc, hrest⟩
      refine ⟨fun x hx => hacc x (List.mem_append_left _ hx), ?_⟩
      intro j hj
      rcases List.mem_cons.mp hj with rfl | hj
      · exact ⟨ksi, hfi, fun x hx => hacc x (List.mem_append_right _ hx)⟩
      · exact hrest j hj

theorem findInternalGo_range (p : InternalPage) (key : Nat) :
    ∀ (fuel : Nat) (st ed : Int), 1 ≤ st → st ≤ ed →
      ed ≤ (p.size : Int) - 1 → (ed - st).toNat < fuel →
      0 ≤ findInternalGo p key st ed fuel ∧
        findInternalGo p key st ed fuel < (p.size : Int) := by
  intro fuel
  induction fuel with
  | zero => intro st ed _ _ _ hf; omega
  | succ fuel ih =>
    intro st ed h1 h2 h3 hf
    rw [findInternalGo]
    rw [if_pos h2]
    simp only
    have hmid1 : st ≤ (st + ed) / 2 := by omega
    have hmid2 : (st + ed) / 2 ≤ ed := by omega
    by_cases hlt : key < p.keyAt ((st + ed) / 2)
    · rw [if_pos hlt]
      by_cases hms : (st + ed) / 2 = st
      · rw [if_pos hms]; omega
      · rw [if_neg hms]
        by_cases hge : p.keyAt ((st + ed) / 2 - 1) ≤ key
        · rw [if_pos hge]; omega
        · rw [if_neg hge]
          exact ih st ((st + ed) / 2 - 1) h1 (by omega) (by omega) (by omega)
    · rw [if_neg hlt]
      by_cases hme : (st + ed) / 2 = ed
      · rw [if_pos hme]; omega
      · rw [if_neg hme]
        by_cases hlt2 : key < p.keyAt ((st + ed) / 2 + 1)
        · rw [if_pos hlt2]; omega
        · rw [if_neg hlt2]
          exact ih ((st + ed) / 2 + 1) ed (by omega) (by omega) h3 (by omega)

/-- With at least two slots the internal binary search lands on a child
slot in `[0, size)`. -/
theorem findInternal_range (p : InternalPage) (key : Nat) (h : 2 ≤ p.size) :
    0 ≤ findInternal key p ∧ findInternal key p < (p.size : Int) := by
  unfold findInternal
  exact findInternalGo_range p key (p.size + 1) 1 ((p.size : Int) - 1)
    le_rfl (by omega) (by omega) (by omega)

theorem findLeafGo_found (l : LeafPage) (key : Nat) :
    ∀ (fuel : Nat) (st ed : Int), 0 ≤ st → ed ≤ (l.size : Int) - 1 →
      findLeafGo l key st ed fuel ≠ -1 →
      ∃ i : Int, findLeafGo l key st ed fuel = i ∧ 0 ≤ i ∧
        i < (l.size : Int) ∧ l.keyAt i = key := by
  intro fuel
  induction fuel with
  | zero => intro st ed _ _ h; exact absurd rfl h
  | succ fuel ih =>
    intro st ed h1 h2 hne
    rw [findLeafGo] at hne ⊢
    by_cases hcmp : st ≤ ed
    · rw [if_pos hcmp] at hne ⊢
      simp only at hne ⊢
      by_cases heq : key = l.keyAt ((st + ed) / 2)
      · rw [if_pos heq] at hne ⊢
        exact ⟨(st + ed) / 2, rfl, by omega, by omega, heq.symm⟩
      · rw [if_neg heq] at hne ⊢
        by_cases hgt : key > l.keyAt ((st + ed) / 2)
        · rw [if_pos hgt] at hne ⊢
          exact ih ((st + ed) / 2 + 1) ed (by omega) h2 hne
        · rw [if_neg hgt] at hne ⊢
          exact ih st ((st + ed) / 2 - 1) h1 (by omega) hne
    · rw [if_neg hcmp] at hne
      exact absurd rfl hne

/-- A key at a visible slot is among the leaf's visible keys. -/
theorem keyAt_mem_entries (l : LeafPage) (i : Int)
    (hk : l.size ≤ l.keys.length) (hv : l.size ≤ l.vals.length)
    (h0 : 0 ≤ i) (h1 : i < (l.size : Int)) :
    l.keyAt i ∈ l.entries.map Prod.fst := by
  have hlen : (l.keys.zip l.vals).length = min l.keys.length l.vals.length :=
    List.length_zip l.keys l.vals
  have hitn : i.toNat < l.size := by omega
  have hzl : i.toNat < (l.keys.zip l.vals).length := by
    rw [hlen]; omega
  have hlt : i.toNat < ((l.keys.zip l.vals).take l.size).length := by
    rw [List.length_take]
    omega
  refine List.mem_map.mpr ⟨((l.keys.zip l.vals).take l.size).get ⟨i.toNat, hlt⟩,
    List.get_mem _ _ hlt, ?_⟩
  have hkl : i.toNat < l.keys.length := by omega
  rw [List.get_eq_getElem, List.getElem_take, List.getElem_zip]
  unfold LeafPage.keyAt
  rw [List.getD_eq_getElem?_getD, List.getElem?_eq_getElem hkl]
  rfl

/-- The pessimistic descent of `Remove` succeeds on any subtree that
`treeKeysGo` accepts, ends the write set on a well-formed leaf, and that
leaf's visible keys all belong to the subtree's keys. -/
theorem removeDescend_keys (s : PageStore) (key : Nat) :
    ∀ (fuel : Nat) (pid : Int) (ws : List Int) (ks : List Nat),
      treeKeysGo s pid fuel = some ks →
      ws.getLast? = some pid →
      ∃ (ws2 : List Int) (leafPid : Int) (l : LeafPage),
        removeDescendGo s key ws pid fuel = some ws2 ∧
        ws2.getLast? = some leafPid ∧
        getPage s leafPid = some (.leaf l) ∧
        l.size ≤ l.keys.length ∧ l.size ≤ l.vals.length ∧
        ∀ x ∈ l.entries.map Prod.fst, x ∈ ks := by
  intro fuel
  induction fuel with
  | zero => intro pid ws ks h _; exact absurd h (by simp [treeKeysGo])
  | succ fuel ih =>
    intro pid ws ks h hlast
    rw [treeKeysGo] at h
    rcases hpg : getPage s pid with _ | pg
    · rw [hpg] at h; exact absurd h (by simp)
    rcases pg with l | p
    · simp only [hpg] at h
      by_cases hcap : l.size ≤ l.keys.length ∧ l.size ≤ l.vals.length
      · rw [if_pos hcap] at h
        injection h with h
        refine ⟨ws, pid, l, ?_, hlast, hpg, hcap.1, hcap.2, ?_⟩
        · rw [removeDescendGo]; simp only [hpg]
        · intro x hx; exact h ▸ hx
      · rw [if_neg hcap] at h; exact absurd h (by simp)
    · simp only [hpg] at h
      by_cases hsz : 2 ≤ p.size
      · rw [if_pos hsz] at h
        rcases collect_foldl_some (List.range p.size) [] ks h with ⟨_, hkids⟩
        have hrange := findInternal_range p key hsz
        have hmem : (findInternal key p).toNat ∈ List.range p.size := by
          rw [List.mem_range]; omega
        rcases hkids (findInternal key p).toNat hmem with ⟨ksi, hksi, hsub⟩
        have hof : (((findInternal key p).toNat : Nat) : Int) =
            findInternal key p := by
          omega
        rw [hof] at hksi
        rcases hcp : getPage s (p.valueAt (findInternal key p)) with _ | cp
        · exact absurd hksi (by
            rcases fuel with _ | fuel <;> simp [treeKeysGo, hcp])
        · rcases ih (p.valueAt (findInternal key p))
              (if cp.size > cp.minSize then [p.valueAt (findInternal key p)]
               else ws ++ [p.valueAt (findInternal key p)]) ksi
              hksi (by
                by_cases hc : cp.size > cp.minSize
                · simp [hc]
                · simp [hc]) with
            ⟨ws2, leafPid, l, hrun, hlast2, hleaf, hc1, hc2, hsubl⟩
          refine ⟨ws2, leafPid, l, ?_, hlast2, hleaf, hc1, hc2,
            fun x hx => hsub x (hsubl x hx)⟩
          rw [removeDescendGo]
          simp only [hpg, hcp]
          exact hrun
      · rw [if_neg hsz] at h; exact absurd h (by simp)

/-- C9: on a non-empty, structurally well-formed tree, removing a key that
is not present leaves the tree state completely unchanged — no page is
modified and the header's root page id stays. -/
theorem remove_absent_key_noop (t : BPlusTree) (k : Nat) (ks : List Nat)
    (h1 : t.rootPageId ≠ INVALID)
    (h2 : treeKeys t = some ks) (h3 : k ∉ ks) :
    remove t k = some t := by
  unfold treeKeys at h2
  rw [if_neg h1] at h2
  have hroot : ∃ rootPg, getPage t.pages t.rootPageId = some rootPg := by
    rw [treeKeysGo] at h2
    rcases hpg : getPage t.pages t.rootPageId with _ | pg
    · rw [hpg] at h2; exact absurd h2 (by simp)
    · exact ⟨pg, rfl⟩
  rcases hroot with ⟨rootPg, hrootPg⟩
  have hws0 : (if (rootPg.isLeaf && decide (rootPg.size ≥ 2)) ||
      decide (rootPg.size ≥ 3) then [t.rootPageId]
    else [headerPageId, t.rootPageId]).getLast? = some t.rootPageId := by
    by_cases hc : ((rootPg.isLeaf && decide (rootPg.size ≥ 2)) ||
        decide (rootPg.size ≥ 3)) = true
    · simp [hc]
    · simp only [Bool.not_eq_true] at hc
      simp [hc]
  rcases removeDescend_keys t.pages k (t.pages.length + 1) t.rootPageId _ ks
    h2 hws0 with ⟨ws2, leafPid, l, hdesc, hlast2, hleaf, hc1, hc2, hsub⟩
  have hslot : findLeaf k l = -1 := by
    by_contra hne
    unfold findLeaf at hne
    rcases findLeafGo_found l k (l.size + 1) 0 ((l.size : Int) - 1)
      le_rfl (by omega) hne with ⟨i, hi, hi0, hi1, hik⟩
    exact h3 (hsub k (hik ▸ keyAt_mem_entries l i hc1 hc2 hi0 hi1))
  unfold remove
  rw [if_neg h1]
  simp only [Option.pure_def, Option.bind_eq_bind, hrootPg, Option.some_bind,
    hdesc, hlast2, hleaf, BPage.asLeaf, hslot]
  simp

/-- A concrete well-formed tree (keys 1..5 under a two-child root) used to
instantiate the absent-key frame property. -/
def c9T : BPlusTree :=
  ((insertChain (BPlusTree.new 3 3)
    [(1, 101), (2, 102), (3, 103), (4, 104), (5, 105)]).map Prod.snd).getD
    (BPlusTree.new 3 3)

/-- Witness: removing the absent key 7 from the concrete tree returns the
very same tree state. -/
theorem remove_absent_key_noop_witness :
    c9T.rootPageId ≠ INVALID ∧ treeKeys c9T = some [1, 2, 3, 4, 5] ∧
      (7 : Nat) ∉ ([1, 2, 3, 4, 5] : List Nat) ∧ remove c9T 7 = some c9T :=
  ⟨by decide, by decide, by decide,
    remove_absent_key_noop c9T 7 [1, 2, 3, 4, 5] (by decide) (by decide)
      (by decide)⟩


end BusTub
